import Mathlib

/-!
Shallow embedding of the web-search-mcp core (TypeScript) and proofs about
its specification claims.

Modelling conventions:
* JS strings are lists of characters (abbreviated Str below).
* JS numbers are exact rationals where fractional arithmetic occurs
  (relevance scores) and naturals/integers where the source only holds
  integral values (lengths, counters, timestamps in milliseconds).
* External effects (HTTP fetches, browser rendering, the HTML parser) are
  universally quantified function parameters, so every theorem holds for
  every possible behaviour of those collaborators.
-/

set_option maxRecDepth 10000

abbrev Str := List Char

/-- Model of the JS regex character class backslash-s (whitespace). -/
def jsSpace (c : Char) : Bool :=
  c = ' ' || c = '\t' || c = '\n' || c = '\r' ||
  c = Char.ofNat 11 || c = Char.ofNat 12 || c = Char.ofNat 160

/-- Does the second list start with the first one? (JS startsWith) -/
def startsWithL : Str → Str → Bool
  | [], _ => true
  | _ :: _, [] => false
  | p :: ps, c :: cs => p = c && startsWithL ps cs

/-- Does the second list end with the first one? (JS endsWith) -/
def endsWithL (suffix s : Str) : Bool :=
  startsWithL suffix.reverse s.reverse

/-- JS String.includes: does hay contain needle as a contiguous substring? -/
def hasSubstr (needle : Str) : Str → Bool
  | [] => needle.isEmpty
  | c :: cs => startsWithL needle (c :: cs) || hasSubstr needle cs

/-- JS trimStart (with the whitespace class of jsSpace). -/
def ltrimL (s : Str) : Str := s.dropWhile jsSpace

/-- JS trimEnd. -/
def rtrimL (s : Str) : Str := (s.reverse.dropWhile jsSpace).reverse

/-- JS String.trim. -/
def trimL (s : Str) : Str := rtrimL (ltrimL s)

/-- Fuel-driven worker for splitWs; the fuel makes the definition
structurally recursive so that the kernel can evaluate it. -/
def splitWsF : Nat → Str → List Str
  | 0, _ => []
  | fuel + 1, s =>
    let w := s.takeWhile (fun c => !jsSpace c)
    let r := s.dropWhile (fun c => !jsSpace c)
    match r with
    | [] => [w]
    | _ :: t => w :: splitWsF fuel (t.dropWhile jsSpace)

/-- JS String.split on the regex backslash-s-plus: pieces are the maximal
whitespace-free runs, with an empty piece at either end when the string
starts or ends with whitespace, and a single empty piece for the empty
string. -/
def splitWs (s : Str) : List Str := splitWsF (s.length + 1) s

/-- Fuel-driven worker for collapseWs. -/
def collapseWsF : Nat → Str → Str
  | 0, _ => []
  | _ + 1, [] => []
  | fuel + 1, c :: t =>
    if jsSpace c then ' ' :: collapseWsF fuel (t.dropWhile jsSpace)
    else c :: collapseWsF fuel t

/-- JS replace of every maximal whitespace run by one space
(the regex replace of backslash-s-plus by a single space, global). -/
def collapseWs (s : Str) : Str := collapseWsF (s.length + 1) s

/-- Fuel-driven worker for replaceNlNl. -/
def replaceNlNlF : Nat → Str → Str
  | 0, _ => []
  | _ + 1, [] => []
  | fuel + 1, c :: t =>
    if c = '\n' then
      let run := t.takeWhile jsSpace
      match run.reverse.findIdx? (fun x => x = '\n') with
      | some i => '\n' :: replaceNlNlF fuel (t.drop (run.length - i))
      | none => c :: replaceNlNlF fuel t
    else c :: replaceNlNlF fuel t

/-- JS global replace of the regex newline backslash-s-star newline by a
single newline: a greedy match runs from a newline to the last newline
inside the following whitespace run. -/
def replaceNlNl (s : Str) : Str := replaceNlNlF (s.length + 1) s

/-- The single-space separator used by join. -/
def spChar : Str := [' ']

/-- JS Array.join with a single space. -/
def joinSp : List Str → Str
  | [] => []
  | [w] => w
  | w :: ws => w ++ ' ' :: joinSp ws

/-- Model of the JS regex class backslash-w (word characters). -/
def isWordChar (c : Char) : Bool := c.isAlpha || c.isDigit || c = '_'

/-- The STOP_WORDS set of src/utils.ts. -/
def STOP_WORDS : List Str :=
  (["a", "an", "and", "are", "as", "at", "be", "by", "for", "from",
    "has", "he", "in", "is", "it", "its", "of", "on", "that", "the",
    "to", "was", "will", "with", "the", "this", "but", "they", "have",
    "had", "what", "when", "where", "who", "which", "why", "how",
    "all", "each", "every", "both", "few", "more", "most", "other",
    "some", "such", "no", "nor", "not", "only", "own", "same", "so",
    "than", "too", "very", "can", "will", "just", "should", "now"] :
    List String).map String.toList

/-- word.toLowerCase().replace of non-word characters by nothing:
the cleaned core of a word used for the stop-word test. -/
def cleanWordOf (w : Str) : Str := (w.map Char.toLower).filter isWordChar

/-- The filter predicate of removeStopWords: keep the word when its
cleaned core is not a stop word, or when the core is empty. -/
def keepWord (w : Str) : Bool :=
  let cw := cleanWordOf w
  !(STOP_WORDS.contains cw) || cw.isEmpty

/-- utils.removeStopWords: split on whitespace, drop stop words,
rejoin with single spaces. -/
def removeStopWords (s : Str) : Str :=
  joinSp ((splitWs s).filter keepWord)

/-- The stages of utils.cleanText before the final length truncation:
stop-word removal, whitespace collapse, newline collapse, trim. -/
def cleanTextPipeline (s : Str) : Str :=
  trimL (replaceNlNl (collapseWs (removeStopWords s)))

/-- utils.cleanText: the cleaning pipeline followed by substring(0, maxLength). -/
def cleanText (s : Str) (maxLength : Nat) : Str :=
  (cleanTextPipeline s).take maxLength

/-- utils.getWordCount. -/
def getWordCount (s : Str) : Nat :=
  ((splitWs (trimL s)).filter (fun w => !w.isEmpty)).length

/-- utils.getContentPreview (the maxLength parameter defaults to 500 at
the call sites). -/
def getContentPreview (text : Str) (maxLength : Nat) : Str :=
  let cleaned := cleanText text maxLength
  if cleaned.length = maxLength then cleaned ++ "...".toList else cleaned

/-- utils.sanitizeQuery: trim and limit to 1000 characters. -/
def sanitizeQuery (q : Str) : Str := (trimL q).take 1000

/-- Model of the pathname of the JS URL constructor on an absolute URL
string: none when parsing fails (no scheme, or an authority form with an
empty host). Approximates the WHATWG parser on the URL shapes the code
meets. -/
def jsUrlPathname (url : Str) : Option Str :=
  let scheme := url.takeWhile (fun c => c.isAlpha || c.isDigit || c = '+' || c = '-' || c = '.')
  let rest := url.drop scheme.length
  match rest with
  | ':' :: r =>
    if scheme.isEmpty then none
    else if !(scheme.headD ' ').isAlpha then none
    else if startsWithL ("//".toList) r then
      let afterSlashes := r.drop 2
      let host := afterSlashes.takeWhile (fun c => c ≠ '/' && c ≠ '?' && c ≠ '#')
      if host.isEmpty then none
      else
        let path := (afterSlashes.drop host.length).takeWhile (fun c => c ≠ '?' && c ≠ '#')
        some (if path.isEmpty then "/".toList else path)
    else some (r.takeWhile (fun c => c ≠ '?' && c ≠ '#'))
  | _ => none

/-- Model of the protocol of the JS URL constructor (scheme plus colon). -/
def jsUrlProtocol (url : Str) : Option Str :=
  match jsUrlPathname url with
  | none => none
  | some _ =>
    some ((url.takeWhile (fun c => c.isAlpha || c.isDigit || c = '+' || c = '-' || c = '.')).map
      Char.toLower ++ [':'])

/-- utils.validateUrl: URL parses and the protocol is http or https. -/
def validateUrl (url : Str) : Bool :=
  match jsUrlProtocol url with
  | some p => p = "http:".toList || p = "https:".toList
  | none => false

/-- utils.isPdfUrl: pathname (or, if URL parsing fails, the raw string)
lower-cased ends with .pdf. -/
def isPdfUrl (url : Str) : Bool :=
  match jsUrlPathname url with
  | some p => endsWithL (".pdf".toList) (p.map Char.toLower)
  | none => endsWithL (".pdf".toList) (url.map Char.toLower)

/-! ## Percent-encoding and URLSearchParams (models of JS builtins) -/

/-- The characters encodeURIComponent leaves unescaped. -/
def uriUnreserved (c : Char) : Bool :=
  c.isAlpha || c.isDigit || c = '-' || c = '_' || c = '.' || c = '!' ||
  c = '~' || c = '*' || c = Char.ofNat 39 || c = '(' || c = ')'

/-- Upper-case hexadecimal digit for a value below 16. -/
def hexDigitChar (n : Nat) : Char :=
  if n < 10 then Char.ofNat (48 + n) else Char.ofNat (55 + n)

/-- Value of a hexadecimal digit character. -/
def hexVal (c : Char) : Option Nat :=
  if '0' ≤ c ∧ c ≤ '9' then some (c.toNat - 48)
  else if 'A' ≤ c ∧ c ≤ 'F' then some (c.toNat - 55)
  else if 'a' ≤ c ∧ c ≤ 'f' then some (c.toNat - 87)
  else none

/-- UTF-8 bytes of one code point. -/
def utf8EncodeChar (n : Nat) : List Nat :=
  if n < 128 then [n]
  else if n < 2048 then [192 + n / 64, 128 + n % 64]
  else if n < 65536 then [224 + n / 4096, 128 + n / 64 % 64, 128 + n % 64]
  else [240 + n / 262144, 128 + n / 4096 % 64, 128 + n / 64 % 64, 128 + n % 64]

/-- The Unicode replacement character. -/
def replCh : Char := Char.ofNat 65533

/-- Fuel-driven worker for utf8DecodeL. -/
def utf8DecodeLF : Nat → List Nat → Str
  | 0, _ => []
  | _ + 1, [] => []
  | fuel + 1, b :: t =>
    if b < 128 then Char.ofNat b :: utf8DecodeLF fuel t
    else if 194 ≤ b ∧ b ≤ 223 then
      match t with
      | b2 :: t2 =>
        if 128 ≤ b2 ∧ b2 ≤ 191 then
          Char.ofNat ((b - 192) * 64 + (b2 - 128)) :: utf8DecodeLF fuel t2
        else replCh :: utf8DecodeLF fuel (b2 :: t2)
      | [] => [replCh]
    else if 224 ≤ b ∧ b ≤ 239 then
      match t with
      | b2 :: b3 :: t3 =>
        if 128 ≤ b2 ∧ b2 ≤ 191 ∧ 128 ≤ b3 ∧ b3 ≤ 191 then
          Char.ofNat ((b - 224) * 4096 + (b2 - 128) * 64 + (b3 - 128)) :: utf8DecodeLF fuel t3
        else replCh :: utf8DecodeLF fuel (b2 :: b3 :: t3)
      | rest => replCh :: utf8DecodeLF fuel rest
    else if 240 ≤ b ∧ b ≤ 244 then
      match t with
      | b2 :: b3 :: b4 :: t4 =>
        if 128 ≤ b2 ∧ b2 ≤ 191 ∧ 128 ≤ b3 ∧ b3 ≤ 191 ∧ 128 ≤ b4 ∧ b4 ≤ 191 then
          Char.ofNat ((b - 240) * 262144 + (b2 - 128) * 4096 + (b3 - 128) * 64 + (b4 - 128))
            :: utf8DecodeLF fuel t4
        else replCh :: utf8DecodeLF fuel (b2 :: b3 :: b4 :: t4)
      | rest => replCh :: utf8DecodeLF fuel rest
    else replCh :: utf8DecodeLF fuel t

/-- Lenient UTF-8 decoding of a byte list (replacement character on
malformed sequences), as WHATWG form decoding uses. -/
def utf8DecodeL (l : List Nat) : Str := utf8DecodeLF l.length l

/-- Fuel-driven worker for utf8DecodeStrict. -/
def utf8DecodeStrictF : Nat → List Nat → Option Str
  | 0, _ => some []
  | _ + 1, [] => some []
  | fuel + 1, b :: t =>
    if b < 128 then (utf8DecodeStrictF fuel t).map (Char.ofNat b :: ·)
    else if 194 ≤ b ∧ b ≤ 223 then
      match t with
      | b2 :: t2 =>
        if 128 ≤ b2 ∧ b2 ≤ 191 then
          (utf8DecodeStrictF fuel t2).map (Char.ofNat ((b - 192) * 64 + (b2 - 128)) :: ·)
        else none
      | [] => none
    else if 224 ≤ b ∧ b ≤ 239 then
      match t with
      | b2 :: b3 :: t3 =>
        if 128 ≤ b2 ∧ b2 ≤ 191 ∧ 128 ≤ b3 ∧ b3 ≤ 191 then
          (utf8DecodeStrictF fuel t3).map
            (Char.ofNat ((b - 224) * 4096 + (b2 - 128) * 64 + (b3 - 128)) :: ·)
        else none
      | _ => none
    else if 240 ≤ b ∧ b ≤ 244 then
      match t with
      | b2 :: b3 :: b4 :: t4 =>
        if 128 ≤ b2 ∧ b2 ≤ 191 ∧ 128 ≤ b3 ∧ b3 ≤ 191 ∧ 128 ≤ b4 ∧ b4 ≤ 191 then
          (utf8DecodeStrictF fuel t4).map
            (Char.ofNat ((b - 240) * 262144 + (b2 - 128) * 4096 + (b3 - 128) * 64 + (b4 - 128)) :: ·)
        else none
      | _ => none
    else none

/-- Strict UTF-8 decoding: none on malformed input (URIError in JS). -/
def utf8DecodeStrict (l : List Nat) : Option Str := utf8DecodeStrictF l.length l

/-- Percent-escape triple for one byte. -/
def pctTriple (b : Nat) : Str := ['%', hexDigitChar (b / 16), hexDigitChar (b % 16)]

/-- Encoding of one character under encodeURIComponent. -/
def encURIChar (c : Char) : Str :=
  if uriUnreserved c then [c]
  else ((utf8EncodeChar c.toNat).map pctTriple).flatten

/-- Model of the JS builtin encodeURIComponent. -/
def encodeURIComponent (s : Str) : Str := (s.map encURIChar).flatten

/-- Fuel-driven worker for pdbLenient. -/
def pdbLenientF : Nat → Str → List Nat
  | 0, _ => []
  | _ + 1, [] => []
  | fuel + 1, c :: rest =>
    if c = '%' then
      match rest with
      | h1 :: h2 :: t =>
        (match hexVal h1, hexVal h2 with
         | some a, some b => (16 * a + b) :: pdbLenientF fuel t
         | _, _ => utf8EncodeChar c.toNat ++ pdbLenientF fuel rest)
      | _ => utf8EncodeChar c.toNat ++ pdbLenientF fuel rest
    else utf8EncodeChar c.toNat ++ pdbLenientF fuel rest

/-- Lenient percent-decoding to bytes: a valid escape becomes its byte,
every other character contributes its UTF-8 bytes. -/
def pdbLenient (s : Str) : List Nat := pdbLenientF s.length s

/-- Fuel-driven worker for pdbStrict. -/
def pdbStrictF : Nat → Str → Option (List Nat)
  | 0, _ => some []
  | _ + 1, [] => some []
  | fuel + 1, c :: rest =>
    if c = '%' then
      match rest with
      | h1 :: h2 :: t =>
        (match hexVal h1, hexVal h2 with
         | some a, some b => (pdbStrictF fuel t).map ((16 * a + b) :: ·)
         | _, _ => none)
      | _ => none
    else (pdbStrictF fuel rest).map (utf8EncodeChar c.toNat ++ ·)

/-- Strict percent-decoding to bytes: none on a malformed escape. -/
def pdbStrict (s : Str) : Option (List Nat) := pdbStrictF s.length s

/-- Plus-to-space step of application/x-www-form-urlencoded decoding. -/
def plusToSpace (s : Str) : Str := s.map (fun c => if c = '+' then ' ' else c)

/-- WHATWG form decoding of one key or value, as URLSearchParams does. -/
def formDecode (s : Str) : Str := utf8DecodeL (pdbLenient (plusToSpace s))

/-- Model of the JS builtin decodeURIComponent: none when it would throw. -/
def decodeURIComponentM (s : Str) : Option Str :=
  (pdbStrict s).bind utf8DecodeStrict

/-- Accumulator worker splitting on every occurrence of one character. -/
def splitOnChGo (sep : Char) : Str → Str → List Str
  | [], acc => [acc.reverse]
  | c :: t, acc =>
    if c = sep then acc.reverse :: splitOnChGo sep t []
    else splitOnChGo sep t (c :: acc)

/-- Split on every occurrence of one character (JS split on a plain string). -/
def splitOnCh (sep : Char) (s : Str) : List Str := splitOnChGo sep s []

/-- Model of new URLSearchParams(s): optional leading question mark is
stripped, pieces are split on ampersands, empty pieces are ignored, a
piece splits at its first equals sign, keys and values are form-decoded. -/
def parseSearchParams (s : Str) : List (Str × Str) :=
  let s1 := if startsWithL ("?".toList) s then s.drop 1 else s
  (splitOnCh '&' s1).filterMap (fun piece =>
    if piece.isEmpty then none
    else
      let k := piece.takeWhile (fun c => c ≠ '=')
      let v := (piece.dropWhile (fun c => c ≠ '=')).drop 1
      some (formDecode k, formDecode v))

/-- URLSearchParams.get: first value for the key, none when absent. -/
def getSearchParam (ps : List (Str × Str)) (key : Str) : Option Str :=
  (ps.find? (fun p => p.1 == key)).map Prod.snd

/-! ## SearchEngine: URL validation and cleaning (src/search-engine.ts) -/

/-- SearchEngine.isValidSearchUrl. -/
def isValidSearchUrl (url : Str) : Bool :=
  startsWithL ("/url?".toList) url ||
  startsWithL ("http://".toList) url ||
  startsWithL ("https://".toList) url ||
  startsWithL ("//".toList) url ||
  startsWithL ("/search?".toList) url ||
  startsWithL ("/".toList) url ||
  hasSubstr ("google.com".toList) url ||
  decide (10 < url.length)

/-- SearchEngine.cleanGoogleUrl: unwrap a /url? redirect through the q
(or url) query parameter, else make protocol-relative URLs absolute. -/
def cleanGoogleUrl (url : Str) : Str :=
  let unwrapped :=
    if startsWithL ("/url?".toList) url then
      let ps := parseSearchParams (url.drop 5)
      let actual :=
        match getSearchParam ps ("q".toList) with
        | some v => if v.isEmpty then getSearchParam ps ("url".toList) else some v
        | none => getSearchParam ps ("url".toList)
      match actual with
      | some v => if v.isEmpty then none else some v
      | none => none
    else none
  match unwrapped with
  | some v => v
  | none =>
    if startsWithL ("//".toList) url then "https:".toList ++ url else url

/-- SearchEngine.cleanBraveUrl. -/
def cleanBraveUrl (url : Str) : Str :=
  if startsWithL ("//".toList) url then "https:".toList ++ url
  else if startsWithL ("http://".toList) url || startsWithL ("https://".toList) url then url
  else url

/-- SearchEngine.cleanBingUrl. -/
def cleanBingUrl (url : Str) : Str :=
  if startsWithL ("//".toList) url then "https:".toList ++ url
  else if startsWithL ("http://".toList) url || startsWithL ("https://".toList) url then url
  else url

/-- SearchEngine.cleanDuckDuckGoUrl: unwrap the uddg redirect parameter
(decoding it once more with decodeURIComponent; a decoding error is
caught and falls through), else make protocol-relative URLs absolute. -/
def cleanDuckDuckGoUrl (url : Str) : Str :=
  let unwrapped :=
    if startsWithL ("//duckduckgo.com/l/".toList) url then
      let tail :=
        match url.findIdx? (fun c => c = '?') with
        | some i => url.drop (i + 1)
        | none => url
      match getSearchParam (parseSearchParams tail) ("uddg".toList) with
      | some v =>
        if v.isEmpty then none
        else
          match decodeURIComponentM v with
          | some d => some d
          | none => none
      | none => none
    else none
  match unwrapped with
  | some v => v
  | none =>
    if startsWithL ("//".toList) url then "https:".toList ++ url else url

/-! ## Data model (src/types.ts) -/

/-- The fetchStatus values of a SearchResult. -/
inductive FetchStatus where
  | success
  | error
  | timeout
deriving DecidableEq, BEq, Repr

/-- types.SearchResult. -/
structure SearchResult where
  title : Str
  url : Str
  description : Str
  fullContent : Str
  contentPreview : Str
  wordCount : Nat
  timestamp : Str
  fetchStatus : FetchStatus
  error : Option Str
deriving DecidableEq, Repr

/-- types.SearchResultWithMetadata, the orchestrator outcome. -/
structure SearchOutcome where
  results : List SearchResult
  engine : Str
deriving DecidableEq, Repr

/-! ## Per-engine result parsers (search-engine.ts)

The cheerio DOM traversal (selector chains over the HTML) is abstracted:
a parser receives the per-result-block extraction outcomes (title text,
href value, snippet text) that the selector chains produced, and performs
the guarding, cleaning and capping logic of the source. -/

/-- One result block as extracted by the selector chains: title text,
href (empty when absent, as the source defaults it with an or), snippet. -/
structure ExtractedBlock where
  title : Str
  url : Str
  snippet : Str
deriving DecidableEq, Repr

/-- One DuckDuckGo result block; the href is an option because the source
reads attr(href) without a default there. -/
structure DdgBlock where
  title : Str
  url : Option Str
  snippet : Str
deriving DecidableEq, Repr

/-- The placeholder description. -/
def noDescription : Str := "No description available".toList

/-- A freshly parsed result record before content extraction. -/
def mkParsedResult (timestamp title url description : Str) : SearchResult :=
  { title := title, url := url, description := description,
    fullContent := [], contentPreview := [], wordCount := 0,
    timestamp := timestamp, fetchStatus := .success, error := none }

/-- Worker for parseBingResults, tracking how many results were pushed. -/
def parseBingResultsGo (timestamp : Str) (maxResults : Nat) :
    List ExtractedBlock → Nat → List SearchResult
  | [], _ => []
  | b :: bs, count =>
    if maxResults ≤ count then []
    else if !b.title.isEmpty && !b.url.isEmpty && isValidSearchUrl b.url then
      mkParsedResult timestamp b.title (cleanBingUrl b.url)
          (if b.snippet.isEmpty then noDescription else b.snippet)
        :: parseBingResultsGo timestamp maxResults bs (count + 1)
    else parseBingResultsGo timestamp maxResults bs count

/-- SearchEngine.parseBingResults over the extracted blocks. -/
def parseBingResults (timestamp : Str) (blocks : List ExtractedBlock)
    (maxResults : Nat) : List SearchResult :=
  parseBingResultsGo timestamp maxResults blocks 0

/-- Worker for parseBraveResults. -/
def parseBraveResultsGo (timestamp : Str) (maxResults : Nat) :
    List ExtractedBlock → Nat → List SearchResult
  | [], _ => []
  | b :: bs, count =>
    if maxResults ≤ count then []
    else if !b.title.isEmpty && !b.url.isEmpty && isValidSearchUrl b.url then
      mkParsedResult timestamp b.title (cleanBraveUrl b.url)
          (if b.snippet.isEmpty then noDescription else b.snippet)
        :: parseBraveResultsGo timestamp maxResults bs (count + 1)
    else parseBraveResultsGo timestamp maxResults bs count

/-- SearchEngine.parseBraveResults over the extracted blocks. -/
def parseBraveResults (timestamp : Str) (blocks : List ExtractedBlock)
    (maxResults : Nat) : List SearchResult :=
  parseBraveResultsGo timestamp maxResults blocks 0

/-- Worker for parseDuckDuckGoResults: only title and url truthiness are
checked, no URL validation. -/
def parseDuckDuckGoResultsGo (timestamp : Str) (maxResults : Nat) :
    List DdgBlock → Nat → List SearchResult
  | [], _ => []
  | b :: bs, count =>
    if maxResults ≤ count then []
    else
      match b.url with
      | some u =>
        if !b.title.isEmpty && !u.isEmpty then
          mkParsedResult timestamp b.title (cleanDuckDuckGoUrl u)
              (if b.snippet.isEmpty then noDescription else b.snippet)
            :: parseDuckDuckGoResultsGo timestamp maxResults bs (count + 1)
        else parseDuckDuckGoResultsGo timestamp maxResults bs count
      | none => parseDuckDuckGoResultsGo timestamp maxResults bs count

/-- SearchEngine.parseDuckDuckGoResults over the extracted blocks. -/
def parseDuckDuckGoResults (timestamp : Str) (blocks : List DdgBlock)
    (maxResults : Nat) : List SearchResult :=
  parseDuckDuckGoResultsGo timestamp maxResults blocks 0

/-! ## Relevance scoring (SearchEngine.assessResultQuality)

JS floating point arithmetic is modelled with exact rationals; the
operations involved (sums, min, max, division by a list length) are the
same heuristic computation. -/

/-- The commonWords set of assessResultQuality. -/
def commonWords : List Str :=
  (["the", "a", "an", "and", "or", "but", "in", "on", "at", "to", "for",
    "of", "with", "by", "is", "are", "was", "were", "be", "been", "have",
    "has", "had", "do", "does", "did", "will", "would", "could", "should",
    "may", "might", "must", "can", "group", "members"] :
    List String).map String.toList

/-- Content words of the query: lower-case, non-word non-space characters
become spaces, split on whitespace, keep words longer than two characters
that are not common words. -/
def queryContentWords (q : Str) : List Str :=
  (splitWs ((q.map Char.toLower).map
      (fun c => if isWordChar c || jsSpace c then c else ' '))).filter
    (fun w => decide (2 < w.length) && !(commonWords.contains w))

/-- Adjacent two-word phrases of the query words. -/
def pairPhrases : List Str → List Str
  | a :: b :: t => (a ++ ' ' :: b) :: pairPhrases (b :: t)
  | _ => []

/-- The phrases checked by assessResultQuality: adjacent pairs plus, when
there are at least three words, the leading three-word phrase. -/
def queryPhrases (qws : List Str) : List Str :=
  if 2 ≤ qws.length then
    pairPhrases qws ++
      (if 3 ≤ qws.length then
        match qws with
        | a :: b :: c :: _ => [a ++ ' ' :: b ++ ' ' :: c]
        | _ => []
      else [])
  else []

/-- The irrelevantPatterns list (all-lower-case literals, tested
case-insensitively against the already lower-cased combined text). -/
def irrelevantPatterns : List Str :=
  (["recipe", "cooking", "food", "restaurant", "menu",
    "weather", "temperature", "forecast",
    "shopping", "sale", "price", "buy", "store",
    "movie", "film", "tv show", "entertainment",
    "sports", "game", "score", "team",
    "fashion", "clothing", "style",
    "travel", "hotel", "flight", "vacation",
    "car", "vehicle", "automotive",
    "real estate", "property", "house", "apartment"] :
    List String).map String.toList

/-- Lower-cased concatenation of title, description and url of one result. -/
def combinedTextOf (r : SearchResult) : Str :=
  (r.title.map Char.toLower) ++ ' ' :: (r.description.map Char.toLower) ++
    ' ' :: (r.url.map Char.toLower)

/-- Per-result score: keyword coverage plus phrase bonus, clamped at one,
minus the off-topic penalty, clamped at zero. -/
def resultQualityScore (qws : List Str) (r : SearchResult) : ℚ :=
  let combined := combinedTextOf r
  let phraseMatches := ((queryPhrases qws).filter (fun p => hasSubstr p combined)).length
  let keywordMatches := (qws.filter (fun w => hasSubstr w combined)).length
  let resultScore : ℚ :=
    min 1 ((keywordMatches : ℚ) / (qws.length : ℚ) + (3 / 10 : ℚ) * (phraseMatches : ℚ))
  let penalty : ℚ :=
    (1 / 5 : ℚ) * ((irrelevantPatterns.filter (fun p => hasSubstr p combined)).length : ℚ)
  max 0 (resultScore - penalty)

/-- SearchEngine.assessResultQuality: zero for an empty result list, one
half when the query has no content words, else the average per-result
score. -/
def assessResultQuality (results : List SearchResult) (originalQuery : Str) : ℚ :=
  if results.isEmpty then 0
  else
    let qws := queryContentWords originalQuery
    if qws.isEmpty then 1 / 2
    else ((results.map (resultQualityScore qws)).sum) / (results.length : ℚ)

/-! ## Search orchestrator (SearchEngine.search of the enhanced variant) -/

/-- The environment-derived configuration read at the top of search. -/
structure SearchConfig where
  enableQualityCheck : Bool
  qualityThreshold : ℚ
  forceMultiEngine : Bool

/-- Outcome of one backend attempt: the parsed results, or the thrown
error (its message). -/
abbrev AttemptResult := Except Str (List SearchResult)

/-- The engine attempt loop of SearchEngine.search: walks the ordered
attempts carrying the best results, engine name and quality seen so far.
A thrown attempt is caught and skipped; an attempt with no results is
skipped; otherwise the quality gates decide between returning at once,
returning the best candidate on the last attempt, and continuing. -/
def searchGo (cfg : SearchConfig) (query : Str) :
    List (Str × AttemptResult) → List SearchResult → Str → ℚ → SearchOutcome
  | [], _, _, _ => ⟨[], "None".toList⟩
  | (name, att) :: rest, bestR, bestE, bestQ =>
    match att with
    | .error _ => searchGo cfg query rest bestR bestE bestQ
    | .ok results =>
      if results.isEmpty then searchGo cfg query rest bestR bestE bestQ
      else
        let q : ℚ := if cfg.enableQualityCheck then assessResultQuality results query else 1
        let best := if bestQ < q then (results, name, q) else (bestR, bestE, bestQ)
        if (4 / 5 : ℚ) ≤ q ∧ cfg.forceMultiEngine = false then ⟨results, name⟩
        else if cfg.qualityThreshold ≤ q ∧ name ≠ "Browser Bing".toList ∧
            cfg.forceMultiEngine = false then ⟨results, name⟩
        else if rest.isEmpty then
          (if cfg.qualityThreshold ≤ best.2.2 ∨ cfg.enableQualityCheck = false then
            ⟨best.1, best.2.1⟩
          else if !best.1.isEmpty then ⟨best.1, best.2.1⟩
          else ⟨[], "None".toList⟩)
        else searchGo cfg query rest best.1 best.2.1 best.2.2

/-! ## Rate limiter (src/rate-limiter.ts) -/

/-- RateLimiter state: rolling request counter with a fixed reset
interval of one minute. -/
structure RateLimiterState where
  requestCount : Nat
  lastResetTime : Int
  maxRequestsPerMinute : Nat

/-- The counter after the reset check of RateLimiter.execute at time now. -/
def rateLimiterEffectiveCount (st : RateLimiterState) (now : Int) : Nat :=
  if 60000 ≤ now - st.lastResetTime then 0 else st.requestCount

/-- RateLimiter.execute: reject with the rate-limit message when the
per-minute quota is exhausted, else run the wrapped computation (the
p-limit concurrency gate only sequences execution and is absorbed by the
value). -/
def rateLimiterExecute (st : RateLimiterState) (now : Int) (a : α) : Except Str α :=
  let lastReset := if 60000 ≤ now - st.lastResetTime then now else st.lastResetTime
  if st.maxRequestsPerMinute ≤ rateLimiterEffectiveCount st now then
    let waitTime := 60000 - (now - lastReset)
    .error ("Rate limit exceeded. Please wait ".toList ++
      (toString ((waitTime + 999).fdiv 1000)).toList ++ " seconds.".toList)
  else .ok a

/-- The fixed attempt order of SearchEngine.search. -/
def searchNames : List Str :=
  (["Browser Bing", "Browser Brave", "Axios DuckDuckGo"] : List String).map String.toList

/-- SearchEngine.search: sanitize the query, pass through the rate
limiter, run the attempt loop; the outer catch wraps any raised error.
The three backend calls are external effects, given as the list of their
outcomes in attempt order. -/
def search (st : RateLimiterState) (now : Int) (cfg : SearchConfig) (query : Str)
    (attempts : List AttemptResult) : Except Str SearchOutcome :=
  match rateLimiterExecute st now
      (searchGo cfg (sanitizeQuery query) (searchNames.zip attempts) [] ("None".toList) 0) with
  | .ok v => .ok v
  | .error e => .error ("Failed to perform search: ".toList ++ e)

/-! ## Content extractor (the enhanced variant, and the plain one)

The network fetch, the browser rendering and the cheerio DOM
selection/clean-up of parseContent are external or library effects; they
appear as function parameters. The final cleanText stage of parseContent
with the instance-level maxContentLength cap, the explicit truncation of
extractWithAxios, the quality checks and the batch logic are concrete. -/

/-- The constructor logic for the instance maxContentLength: the parsed
MAX_CONTENT_LENGTH environment value (none when unset, empty or not a
number) with a 500000 default and a negativity guard. -/
def mkMaxContentLength (env : Option Int) : Nat :=
  match env with
  | none => 500000
  | some v => if v < 0 then 500000 else v.toNat

/-- The error object thrown by an axios request, as far as the code
inspects it: optional HTTP status, message, response body. -/
structure AxiosError where
  status : Option Nat
  message : Str
  data : Str

/-- EnhancedContentExtractor.isLowQualityContent. -/
def isLowQualityContent (content : Str) : Bool :=
  decide (content.length < 100) ||
  hasSubstr ("Please enable JavaScript".toList) content ||
  hasSubstr ("Access Denied".toList) content ||
  hasSubstr ("403 Forbidden".toList) content ||
  hasSubstr ("captcha".toList) content ||
  hasSubstr ("unusual traffic".toList) content ||
  hasSubstr ("robot".toList) content ||
  (trimL content).isEmpty

/-- EnhancedContentExtractor.shouldUseBrowser. -/
def shouldUseBrowser (e : AxiosError) (url : Str) : Bool :=
  e.status == some 403 || e.status == some 429 || e.status == some 503 ||
  hasSubstr ("timeout".toList) e.message ||
  hasSubstr ("Access denied".toList) e.message ||
  hasSubstr ("Forbidden".toList) e.message ||
  hasSubstr ("Low quality content detected".toList) e.message ||
  hasSubstr ("Please enable JavaScript".toList) e.data ||
  hasSubstr ("captcha".toList) e.data ||
  hasSubstr ("unusual traffic".toList) e.data ||
  hasSubstr ("robot".toList) e.data ||
  hasSubstr ("twitter.com".toList) url ||
  hasSubstr ("facebook.com".toList) url ||
  hasSubstr ("instagram.com".toList) url ||
  hasSubstr ("linkedin.com".toList) url ||
  hasSubstr ("reddit.com".toList) url ||
  hasSubstr ("medium.com".toList) url

/-- EnhancedContentExtractor.parseContent: extractMain stands for the
cheerio DOM stripping, the main-content selection and the regex clean-up
(cleanTextContent); the concluding cleanText call with the instance cap
is concrete, as in the source. -/
def parseContent (extractMain : Str → Str) (instMax : Nat) (html : Str) : Str :=
  cleanText (extractMain html) instMax

/-- EnhancedContentExtractor.extractWithAxios: fetch, parse, truncate
manually when a non-zero maxContentLength is exceeded (a zero or absent
value skips this step), then reject low-quality content. -/
def extractWithAxios (fetch : Str → Except AxiosError Str) (extractMain : Str → Str)
    (instMax : Nat) (url : Str) (maxContentLength : Option Nat) : Except AxiosError Str :=
  match fetch url with
  | .error e => .error e
  | .ok data =>
    let parsed := parseContent extractMain instMax data
    let eff := maxContentLength.getD instMax
    let content := if eff ≠ 0 ∧ eff < parsed.length then parsed.take eff else parsed
    if isLowQualityContent content then
      .error ⟨none, "Low quality content detected - likely bot detection".toList, []⟩
    else .ok content

/-- EnhancedContentExtractor.extractWithBrowser: render (the pool,
contexts, stealth scripts, navigation and the HTTP/1.1 retry are inside
the render effect), then parse; the per-call maxContentLength option is
not consulted on this path. -/
def extractWithBrowser (render : Str → Except Str Str) (extractMain : Str → Str)
    (instMax : Nat) (url : Str) : Except Str Str :=
  match render url with
  | .ok html => .ok (parseContent extractMain instMax html)
  | .error e => .error e

/-- EnhancedContentExtractor.extractContent: fast axios path first, then
the browser path when the failure looks browser-recoverable. -/
def extractContent (fetch : Str → Except AxiosError Str) (render : Str → Except Str Str)
    (extractMain : Str → Str) (instMax : Nat) (url : Str)
    (maxContentLength : Option Nat) : Except Str Str :=
  match extractWithAxios fetch extractMain instMax url maxContentLength with
  | .ok c => .ok c
  | .error e =>
    if shouldUseBrowser e url then
      match extractWithBrowser render extractMain instMax url with
      | .ok c => .ok c
      | .error _ => .error ("Both axios and browser extraction failed for ".toList ++ url)
    else .error e.message

/-- The success-branch record of batch extraction: the input result with
the extraction fields filled in. -/
def enhanceSuccess (now : Str) (instMax : Nat) (r : SearchResult) (content : Str) :
    SearchResult :=
  let cleaned := cleanText content instMax
  { r with
    fullContent := cleaned,
    contentPreview := getContentPreview cleaned 500,
    wordCount := getWordCount cleaned,
    timestamp := now,
    fetchStatus := .success }

/-- The failure-branch record of batch extraction: the input result with
empty content, an error status and the classified message. -/
def enhanceFailure (now : Str) (r : SearchResult) (msg : Str) : SearchResult :=
  { r with
    fullContent := [],
    contentPreview := [],
    wordCount := 0,
    timestamp := now,
    fetchStatus := .error,
    error := some msg }

/-- EnhancedContentExtractor.extractContentForResults: drop PDF URLs,
process up to min(targetCount * 2, 10) candidates concurrently (extract
is the per-URL outcome, its error already classified), then return the
successes first, backfilled with failures, capped at targetCount. -/
def EnhancedContentExtractor.extractContentForResults
    (extract : Str → Except Str Str) (now : Str) (instMax : Nat)
    (results : List SearchResult) (targetCount : Nat) : List SearchResult :=
  let nonPdfResults := results.filter (fun r => !isPdfUrl r.url)
  let resultsToProcess := nonPdfResults.take (min (targetCount * 2) 10)
  let allResults := resultsToProcess.map (fun r =>
    match extract r.url with
    | .ok content => enhanceSuccess now instMax r content
    | .error e => enhanceFailure now r e)
  let successfulResults := allResults.filter (fun r => r.fetchStatus == .success)
  let failedResults := allResults.filter (fun r => r.fetchStatus == .error)
  (successfulResults.take targetCount ++
    failedResults.take (targetCount - successfulResults.length)).take targetCount

/-- Worker for the plain ContentExtractor.extractContentForResults:
sequential loop, stops at targetCount accumulated entries, skips PDFs,
pushes a success or error record per processed result. -/
def ContentExtractor.extractContentForResultsGo (extract : Str → Except Str Str)
    (now : Str) (instMax : Nat) (targetCount : Nat) :
    List SearchResult → Nat → List SearchResult
  | [], _ => []
  | r :: rest, got =>
    if targetCount ≤ got then []
    else if isPdfUrl r.url then
      ContentExtractor.extractContentForResultsGo extract now instMax targetCount rest got
    else
      (match extract r.url with
       | .ok content => enhanceSuccess now instMax r content
       | .error e => enhanceFailure now r e) ::
        ContentExtractor.extractContentForResultsGo extract now instMax targetCount rest (got + 1)

/-- ContentExtractor.extractContentForResults (src/content-extractor.ts). -/
def ContentExtractor.extractContentForResults (extract : Str → Except Str Str)
    (now : Str) (instMax : Nat) (results : List SearchResult) (targetCount : Nat) :
    List SearchResult :=
  ContentExtractor.extractContentForResultsGo extract now instMax targetCount results 0

/-! ## Redirect wrappers (from the specification, for the round-trip claim)

These express the engine redirect formats named by the claim: they are
spec-side definitions, inverses are the cleaning functions above. -/

/-- A URL wrapped in the Google redirect format /url?q=... . -/
def googleWrap (u : Str) : Str := "/url?q=".toList ++ encodeURIComponent u

/-- A URL wrapped in the DuckDuckGo redirect format
//duckduckgo.com/l/?uddg=... . -/
def ddgWrap (u : Str) : Str := "//duckduckgo.com/l/?uddg=".toList ++ encodeURIComponent u

/-- A URL written protocol-relative (scheme stripped). -/
def protoRelWrap (u : Str) : Str :=
  if startsWithL ("https:".toList) u then u.drop 6
  else if startsWithL ("http:".toList) u then u.drop 5
  else u

/-- All characters of a string are ASCII. -/
def asciiStr (s : Str) : Prop := ∀ c ∈ s, c.toNat < 128

/-- The nonempty whitespace-separated words of a string (proof helper:
the canonical word list underlying the cleaning pipeline). -/
def wordsOf (s : Str) : List Str := (splitWs s).filter (fun w => !w.isEmpty)

/-- A 143-character text of 24 harmless five-letter words (witness data). -/
def longWordText : Str := joinSp (List.replicate 24 ("abcde".toList))

/-! # Theorems

First general lemmas about the string workers, then the claim theorems
with their witnesses and counterexamples. -/


theorem length_dropWhile_le' (p : Char → Bool) (l : Str) :
    (l.dropWhile p).length ≤ l.length :=
  List.IsSuffix.length_le (List.dropWhile_suffix p)

theorem splitWsF_succ (fuel : Nat) (s : Str) :
    splitWsF (fuel + 1) s =
      (match s.dropWhile (fun c => !jsSpace c) with
       | [] => [s.takeWhile (fun c => !jsSpace c)]
       | _ :: t => s.takeWhile (fun c => !jsSpace c) :: splitWsF fuel (t.dropWhile jsSpace)) :=
  rfl

theorem splitWsF_succ_cons {s : Str} {d : Char} {t : Str} (fuel : Nat)
    (h : s.dropWhile (fun c => !jsSpace c) = d :: t) :
    splitWsF (fuel + 1) s =
      s.takeWhile (fun c => !jsSpace c) :: splitWsF fuel (t.dropWhile jsSpace) := by
  rw [splitWsF_succ, h]

theorem splitWsF_succ_nil {s : Str} (fuel : Nat)
    (h : s.dropWhile (fun c => !jsSpace c) = []) :
    splitWsF (fuel + 1) s = [s.takeWhile (fun c => !jsSpace c)] := by
  rw [splitWsF_succ, h]

theorem length_lt_of_drop_cons {s : Str} {d : Char} {t : Str} {p : Char → Bool}
    (h : s.dropWhile p = d :: t) : t.length < s.length := by
  have := List.IsSuffix.length_le (List.dropWhile_suffix (l := s) p)
  rw [h] at this
  simp at this
  omega

theorem splitWsF_fuel : ∀ f1 : Nat, ∀ (s : Str) (f2 : Nat), s.length < f1 → s.length < f2 →
    splitWsF f1 s = splitWsF f2 s := by
  intro f1
  induction f1 with
  | zero => intro s f2 h; omega
  | succ n ih =>
    intro s f2 h1 h2
    cases f2 with
    | zero => omega
    | succ m =>
      cases hr : s.dropWhile (fun c => !jsSpace c) with
      | nil => rw [splitWsF_succ_nil n hr, splitWsF_succ_nil m hr]
      | cons d t =>
        rw [splitWsF_succ_cons n hr, splitWsF_succ_cons m hr]
        have hlen : t.length < s.length := length_lt_of_drop_cons hr
        have harg : (t.dropWhile jsSpace).length ≤ t.length := length_dropWhile_le' _ _
        rw [ih (t.dropWhile jsSpace) m (by omega) (by omega)]

theorem splitWs_eq_of_drop_cons {s : Str} {d : Char} {t : Str}
    (h : s.dropWhile (fun c => !jsSpace c) = d :: t) :
    splitWs s = s.takeWhile (fun c => !jsSpace c) :: splitWs (t.dropWhile jsSpace) := by
  have hlen : t.length < s.length := length_lt_of_drop_cons h
  have harg : (t.dropWhile jsSpace).length ≤ t.length := length_dropWhile_le' _ _
  show splitWsF (s.length + 1) s = _
  cases hn : s.length with
  | zero => omega
  | succ k =>
    rw [splitWsF_succ_cons (k + 1) h]
    rw [splitWsF_fuel (k + 1) (t.dropWhile jsSpace) ((t.dropWhile jsSpace).length + 1)
      (by omega) (by omega)]
    rfl

theorem splitWs_eq_of_drop_nil {s : Str} (h : s.dropWhile (fun c => !jsSpace c) = []) :
    splitWs s = [s] := by
  show splitWsF (s.length + 1) s = _
  rw [splitWsF_succ_nil s.length h]
  have : s.takeWhile (fun c => !jsSpace c) = s := by
    conv_rhs => rw [← List.takeWhile_append_dropWhile (fun c => !jsSpace c) s]
    rw [h, List.append_nil]
  rw [this]

theorem collapseWsF_succ_cons_space {c : Char} (fuel : Nat) (t : Str) (hc : jsSpace c = true) :
    collapseWsF (fuel + 1) (c :: t) = ' ' :: collapseWsF fuel (t.dropWhile jsSpace) := by
  show (if jsSpace c = true then _ else _) = _
  rw [if_pos hc]

theorem collapseWsF_succ_cons_nonspace {c : Char} (fuel : Nat) (t : Str)
    (hc : jsSpace c = false) :
    collapseWsF (fuel + 1) (c :: t) = c :: collapseWsF fuel t := by
  show (if jsSpace c = true then _ else _) = _
  rw [if_neg (by rw [hc]; exact Bool.false_ne_true)]

theorem collapseWsF_fuel : ∀ f1 : Nat, ∀ (s : Str) (f2 : Nat), s.length < f1 → s.length < f2 →
    collapseWsF f1 s = collapseWsF f2 s := by
  intro f1
  induction f1 with
  | zero => intro s f2 h; omega
  | succ n ih =>
    intro s f2 h1 h2
    cases f2 with
    | zero => omega
    | succ m =>
      cases s with
      | nil => rfl
      | cons c t =>
        simp only [List.length_cons] at h1 h2
        by_cases hc : jsSpace c = true
        · rw [collapseWsF_succ_cons_space n t hc, collapseWsF_succ_cons_space m t hc]
          have harg : (t.dropWhile jsSpace).length ≤ t.length := length_dropWhile_le' _ _
          rw [ih (t.dropWhile jsSpace) m (by omega) (by omega)]
        · have hc' : jsSpace c = false := by
            cases hcc : jsSpace c
            · rfl
            · exact absurd hcc hc
          rw [collapseWsF_succ_cons_nonspace n t hc', collapseWsF_succ_cons_nonspace m t hc']
          rw [ih t m (by omega) (by omega)]

theorem collapseWs_nil : collapseWs [] = [] := rfl

theorem collapseWs_cons_space {c : Char} (t : Str) (hc : jsSpace c = true) :
    collapseWs (c :: t) = ' ' :: collapseWs (t.dropWhile jsSpace) := by
  show collapseWsF ((c :: t).length + 1) (c :: t) = _
  simp only [List.length_cons]
  rw [collapseWsF_succ_cons_space (t.length + 1) t hc]
  rw [collapseWsF_fuel (t.length + 1) (t.dropWhile jsSpace) ((t.dropWhile jsSpace).length + 1)
    (by have := length_dropWhile_le' jsSpace t; omega) (by omega)]
  rfl

theorem collapseWs_cons_nonspace {c : Char} (t : Str) (hc : jsSpace c = false) :
    collapseWs (c :: t) = c :: collapseWs t := by
  show collapseWsF ((c :: t).length + 1) (c :: t) = _
  simp only [List.length_cons]
  rw [collapseWsF_succ_cons_nonspace (t.length + 1) t hc]
  rfl

theorem replaceNlNlF_no_nl : ∀ fuel : Nat, ∀ s : Str, s.length < fuel → '\n' ∉ s →
    replaceNlNlF fuel s = s := by
  intro fuel
  induction fuel with
  | zero => intro s h; omega
  | succ n ih =>
    intro s h1 h2
    cases s with
    | nil => rfl
    | cons c t =>
      have hc : ¬(c = '\n') := by
        intro he
        exact h2 (by rw [he]; exact List.mem_cons_self _ _)
      show (if c = '\n' then _ else c :: replaceNlNlF n t) = c :: t
      rw [if_neg hc]
      simp only [List.length_cons] at h1
      rw [ih t (by omega) (fun hm => h2 (List.mem_cons_of_mem _ hm))]

theorem replaceNlNl_no_nl {s : Str} (h : '\n' ∉ s) : replaceNlNl s = s :=
  replaceNlNlF_no_nl (s.length + 1) s (by omega) h

theorem dropWhile_head_false {p : Char → Bool} :
    ∀ {s : Str} {d : Char} {t : Str}, s.dropWhile p = d :: t → p d = false := by
  intro s
  induction s with
  | nil => intro d t h; simp [List.dropWhile] at h
  | cons a u ih =>
    intro d t h
    rw [List.dropWhile_cons] at h
    by_cases ha : p a = true
    · rw [if_pos ha] at h
      exact ih h
    · rw [if_neg ha] at h
      cases h
      cases hv : p a
      · rfl
      · exact absurd hv ha

theorem collapseWs_spacefree {l : Str} (h : ∀ c ∈ l, jsSpace c = false) :
    collapseWs l = l := by
  induction l with
  | nil => rfl
  | cons c t ih =>
    rw [collapseWs_cons_nonspace t (h c (List.mem_cons_self _ _))]
    rw [ih (fun x hx => h x (List.mem_cons_of_mem _ hx))]

theorem collapseWs_append_spacefree {w : Str} (x : Str) (h : ∀ c ∈ w, jsSpace c = false) :
    collapseWs (w ++ x) = w ++ collapseWs x := by
  induction w with
  | nil => simp
  | cons c t ih =>
    rw [List.cons_append, collapseWs_cons_nonspace _ (h c (List.mem_cons_self _ _))]
    rw [ih (fun y hy => h y (List.mem_cons_of_mem _ hy))]
    rfl

theorem collapseWs_mem : ∀ (l : Str), ∀ c ∈ collapseWs l, c = ' ' ∨ jsSpace c = false := by
  have key : ∀ (n : Nat) (l : Str), l.length ≤ n → ∀ c ∈ collapseWs l,
      c = ' ' ∨ jsSpace c = false := by
    intro n
    induction n with
    | zero =>
      intro l h c hc
      have : l = [] := List.length_eq_zero.mp (Nat.le_zero.mp h)
      rw [this, collapseWs_nil] at hc
      cases hc
    | succ n ih =>
      intro l h c hc
      cases l with
      | nil => rw [collapseWs_nil] at hc; cases hc
      | cons a t =>
        simp only [List.length_cons] at h
        by_cases ha : jsSpace a = true
        · rw [collapseWs_cons_space t ha] at hc
          rcases List.mem_cons.mp hc with h1 | h1
          · exact Or.inl h1
          · exact ih (t.dropWhile jsSpace)
              (le_trans (length_dropWhile_le' _ _) (by omega)) c h1
        · have ha' : jsSpace a = false := by
            cases hv : jsSpace a
            · rfl
            · exact absurd hv ha
          rw [collapseWs_cons_nonspace t ha'] at hc
          rcases List.mem_cons.mp hc with h1 | h1
          · rw [h1]; exact Or.inr ha'
          · exact ih t (by omega) c h1
  exact fun l => key l.length l le_rfl

theorem no_nl_collapseWs (l : Str) : '\n' ∉ collapseWs l := by
  intro hm
  rcases collapseWs_mem l '\n' hm with h | h
  · exact absurd h (by decide)
  · exact absurd h (by decide)

theorem replaceNlNl_collapseWs (l : Str) : replaceNlNl (collapseWs l) = collapseWs l :=
  replaceNlNl_no_nl (no_nl_collapseWs l)

theorem ltrim_cons_space {c : Char} (t : Str) (hc : jsSpace c = true) :
    ltrimL (c :: t) = ltrimL t := by
  show (c :: t).dropWhile jsSpace = t.dropWhile jsSpace
  rw [List.dropWhile_cons, if_pos hc]

theorem ltrim_cons_nonspace {c : Char} (t : Str) (hc : jsSpace c = false) :
    ltrimL (c :: t) = c :: t := by
  show (c :: t).dropWhile jsSpace = c :: t
  rw [List.dropWhile_cons, if_neg (by rw [hc]; exact Bool.false_ne_true)]

theorem rtrim_eq_nil_iff {l : Str} : rtrimL l = [] ↔ ∀ c ∈ l, jsSpace c = true := by
  unfold rtrimL
  rw [List.reverse_eq_nil_iff, List.dropWhile_eq_nil_iff]
  constructor
  · intro h c hc
    exact h c (List.mem_reverse.mpr hc)
  · intro h c hc
    exact h c (List.mem_reverse.mp hc)

theorem rtrim_spacefree {l : Str} (h : ∀ c ∈ l, jsSpace c = false) : rtrimL l = l := by
  unfold rtrimL
  cases hr : l.reverse with
  | nil =>
    have : l = [] := by
      have := congrArg List.reverse hr
      simpa using this
    simp [this]
  | cons a t =>
    have ha : jsSpace a = false := by
      apply h
      rw [← List.mem_reverse, hr]
      exact List.mem_cons_self _ _
    rw [List.dropWhile_cons, if_neg (by rw [ha]; exact Bool.false_ne_true)]
    rw [← hr, List.reverse_reverse]

theorem rtrim_append_of_ne_nil {b : Str} (a : Str) (h : rtrimL b ≠ []) :
    rtrimL (a ++ b) = a ++ rtrimL b := by
  unfold rtrimL at h ⊢
  rw [List.reverse_append, List.dropWhile_append]
  have hne : (b.reverse.dropWhile jsSpace).isEmpty = false := by
    cases hv : b.reverse.dropWhile jsSpace with
    | nil => rw [hv] at h; simp at h
    | cons x y => rfl
  rw [hne]
  simp

theorem rtrim_append_allspace {b : Str} (a : Str) (h : ∀ c ∈ b, jsSpace c = true) :
    rtrimL (a ++ b) = rtrimL a := by
  unfold rtrimL
  rw [List.reverse_append, List.dropWhile_append]
  have hnil : b.reverse.dropWhile jsSpace = [] :=
    List.dropWhile_eq_nil_iff.mpr (fun x hx => h x (List.mem_reverse.mp hx))
  rw [hnil]
  rfl

theorem splitWs_pieces_spacefree : ∀ (s : Str), ∀ p ∈ splitWs s, ∀ c ∈ p,
    jsSpace c = false := by
  have key : ∀ (n : Nat) (s : Str), s.length ≤ n → ∀ p ∈ splitWs s, ∀ c ∈ p,
      jsSpace c = false := by
    intro n
    induction n with
    | zero =>
      intro s h p hp c hc
      have hs : s = [] := List.length_eq_zero.mp (Nat.le_zero.mp h)
      subst hs
      have : splitWs ([] : Str) = [[]] := rfl
      rw [this] at hp
      rcases List.mem_singleton.mp hp with rfl
      cases hc
    | succ n ih =>
      intro s h p hp c hc
      cases hr : s.dropWhile (fun x => !jsSpace x) with
      | nil =>
        rw [splitWs_eq_of_drop_nil hr] at hp
        rcases List.mem_singleton.mp hp with rfl
        have := List.dropWhile_eq_nil_iff.mp hr c hc
        simpa using this
      | cons d t =>
        rw [splitWs_eq_of_drop_cons hr] at hp
        rcases List.mem_cons.mp hp with h1 | h1
        · subst h1
          have := List.mem_takeWhile_imp hc
          simpa using this
        · have hlen : t.length < s.length := length_lt_of_drop_cons hr
          exact ih (t.dropWhile jsSpace)
            (le_trans (length_dropWhile_le' _ _) (by omega)) p h1 c hc
  exact fun s => key s.length s le_rfl

theorem takeWhile_spacefree_sep {w : Str} {d : Char} (x : Str)
    (hw : ∀ c ∈ w, jsSpace c = false) (hd : jsSpace d = true) :
    (w ++ d :: x).takeWhile (fun c => !jsSpace c) = w := by
  induction w with
  | nil =>
    simp [List.takeWhile_cons, hd]
  | cons a t ih =>
    have ha : jsSpace a = false := hw a (List.mem_cons_self _ _)
    rw [List.cons_append, List.takeWhile_cons]
    simp only [ha]
    rw [ih (fun c hc => hw c (List.mem_cons_of_mem _ hc))]
    rfl

theorem dropWhile_spacefree_sep {w : Str} {d : Char} (x : Str)
    (hw : ∀ c ∈ w, jsSpace c = false) (hd : jsSpace d = true) :
    (w ++ d :: x).dropWhile (fun c => !jsSpace c) = d :: x := by
  induction w with
  | nil =>
    simp [List.dropWhile_cons, hd]
  | cons a t ih =>
    have ha : jsSpace a = false := hw a (List.mem_cons_self _ _)
    rw [List.cons_append, List.dropWhile_cons]
    simp only [ha]
    rw [ih (fun c hc => hw c (List.mem_cons_of_mem _ hc))]
    rfl

theorem startsWithL_iff : ∀ (p s : Str), startsWithL p s = true ↔ p <+: s := by
  intro p
  induction p with
  | nil => intro s; simp [startsWithL, List.nil_prefix]
  | cons a t ih =>
    intro s
    cases s with
    | nil =>
      simp only [startsWithL]
      constructor
      · intro h; cases h
      · intro h
        have := h.length_le
        simp at this
    | cons b u =>
      simp only [startsWithL, Bool.and_eq_true, beq_iff_eq, decide_eq_true_eq]
      rw [ih u]
      constructor
      · rintro ⟨rfl, h⟩
        exact List.cons_prefix_cons.mpr ⟨rfl, h⟩
      · intro h
        have := List.cons_prefix_cons.mp h
        exact ⟨this.1, this.2⟩

theorem hasSubstr_iff : ∀ (n h : Str), hasSubstr n h = true ↔ n <:+: h := by
  intro n h
  induction h with
  | nil =>
    simp only [hasSubstr, List.isEmpty_iff]
    constructor
    · intro he; rw [he]
    · intro hi
      rcases hi with ⟨s, t, hst⟩
      rcases List.append_eq_nil.mp hst with ⟨h1, h2⟩
      rcases List.append_eq_nil.mp h1 with ⟨_, h3⟩
      exact h3
  | cons c cs ih =>
    simp only [hasSubstr, Bool.or_eq_true]
    rw [ih, startsWithL_iff, List.infix_cons_iff]

theorem joinSp_cons₂ (w x : Str) (t : List Str) :
    joinSp (w :: x :: t) = w ++ ' ' :: joinSp (x :: t) := rfl

theorem wordsOf_mem_ne_nil {s : Str} {q : Str} (h : q ∈ wordsOf s) : q ≠ [] := by
  have := (List.mem_filter.mp h).2
  intro he
  rw [he] at this
  simp at this

theorem joinSp_cons_ne_nil {q : Str} (qs : List Str) (h : q ≠ []) : joinSp (q :: qs) ≠ [] := by
  cases qs with
  | nil => exact h
  | cons x t =>
    rw [joinSp_cons₂]
    intro he
    rcases List.append_eq_nil.mp he with ⟨h1, h2⟩
    exact h h1

theorem ltrim_collapse_dropped (t' : Str) :
    ltrimL (collapseWs (t'.dropWhile jsSpace)) = collapseWs (t'.dropWhile jsSpace) := by
  cases hu : t'.dropWhile jsSpace with
  | nil => rfl
  | cons e u2 =>
    have he : jsSpace e = false := dropWhile_head_false hu
    rw [collapseWs_cons_nonspace u2 he]
    exact ltrim_cons_nonspace _ he

/-- The central normal form: trimming the whitespace-collapse of any
string is the single-space join of its nonempty words. -/
theorem trim_collapse : ∀ (l : Str), trimL (collapseWs l) = joinSp (wordsOf l) := by
  have key : ∀ (n : Nat) (l : Str), l.length ≤ n → trimL (collapseWs l) = joinSp (wordsOf l) := by
    intro n
    induction n with
    | zero =>
      intro l h
      have : l = [] := List.length_eq_zero.mp (Nat.le_zero.mp h)
      subst this
      rfl
    | succ n ih =>
      intro l hlen
      cases l with
      | nil => rfl
      | cons a t =>
        simp only [List.length_cons] at hlen
        by_cases ha : jsSpace a = true
        · -- leading whitespace: both sides reduce to the dropped tail
          have hdrop : (a :: t).dropWhile (fun c => !jsSpace c) = a :: t := by
            rw [List.dropWhile_cons, if_neg (by simp [ha])]
          have hsplit := splitWs_eq_of_drop_cons hdrop
          have htake : (a :: t).takeWhile (fun c => !jsSpace c) = [] := by
            rw [List.takeWhile_cons, if_neg (by simp [ha])]
          rw [htake] at hsplit
          have hwords : wordsOf (a :: t) = wordsOf (t.dropWhile jsSpace) := by
            unfold wordsOf
            rw [hsplit]
            rfl
          rw [collapseWs_cons_space t ha, hwords]
          show trimL (' ' :: collapseWs (t.dropWhile jsSpace)) = _
          unfold trimL
          rw [ltrim_cons_space _ (by decide)]
          have := ih (t.dropWhile jsSpace) (le_trans (length_dropWhile_le' _ _) (by omega))
          unfold trimL at this
          exact this
        · have ha' : jsSpace a = false := by
            cases hv : jsSpace a
            · rfl
            · exact absurd hv ha
          cases hr : (a :: t).dropWhile (fun c => !jsSpace c) with
          | nil =>
            -- the whole string is one whitespace-free word
            have hsf : ∀ c ∈ a :: t, jsSpace c = false := by
              intro c hc
              have := List.dropWhile_eq_nil_iff.mp hr c hc
              simpa using this
            rw [collapseWs_spacefree hsf]
            unfold trimL
            rw [ltrim_cons_nonspace t ha', rtrim_spacefree hsf]
            unfold wordsOf
            rw [splitWs_eq_of_drop_nil hr]
            rfl
          | cons d t' =>
            have hd : jsSpace d = true := by
              have := dropWhile_head_false hr
              simpa using this
            set w := (a :: t).takeWhile (fun c => !jsSpace c) with hw
            have hwsf : ∀ c ∈ w, jsSpace c = false := by
              intro c hc
              have := List.mem_takeWhile_imp hc
              simpa using this
            have hwa : w = a :: t.takeWhile (fun c => !jsSpace c) := by
              rw [hw, List.takeWhile_cons, if_pos (by simp [ha'])]
            have hdecomp : (a :: t) = w ++ d :: t' := by
              conv_lhs => rw [← List.takeWhile_append_dropWhile (fun c => !jsSpace c) (a :: t)]
              rw [hr]
            have hsplit := splitWs_eq_of_drop_cons hr
            set u := t'.dropWhile jsSpace with hu
            have hulen : u.length ≤ n := by
              have h1 : t'.length < (a :: t).length := length_lt_of_drop_cons hr
              simp only [List.length_cons] at h1
              exact le_trans (length_dropWhile_le' _ _) (by omega)
            have hcoll : collapseWs (a :: t) = w ++ ' ' :: collapseWs u := by
              rw [hdecomp, collapseWs_append_spacefree _ hwsf, collapseWs_cons_space t' hd]
            have hwordsl : wordsOf (a :: t) = w :: wordsOf u := by
              unfold wordsOf
              rw [hsplit]
              show List.filter _ (w :: _) = _
              rw [List.filter_cons]
              rw [if_pos (by rw [hwa]; simp)]
            have ihu := ih u hulen
            unfold trimL at ihu
            rw [ltrim_collapse_dropped t'] at ihu
            rw [hcoll, hwordsl]
            unfold trimL
            have hltr : ltrimL (w ++ ' ' :: collapseWs u) = w ++ ' ' :: collapseWs u := by
              rw [hwa, List.cons_append]
              rw [ltrim_cons_nonspace _ ha']
            rw [hltr]
            cases hws : wordsOf u with
            | nil =>
              rw [hws] at ihu
              have hall : ∀ c ∈ ' ' :: collapseWs u, jsSpace c = true := by
                intro c hc
                rcases List.mem_cons.mp hc with h1 | h1
                · rw [h1]; decide
                · have := rtrim_eq_nil_iff.mp ihu c h1
                  exact this
              rw [show w ++ ' ' :: collapseWs u = w ++ (' ' :: collapseWs u) from rfl]
              rw [rtrim_append_allspace w hall, rtrim_spacefree hwsf]
              rfl
            | cons q qs =>
              have hqne : q ≠ [] := wordsOf_mem_ne_nil (by rw [hws]; exact List.mem_cons_self _ _)
              have hne : rtrimL (collapseWs u) ≠ [] := by
                rw [ihu, hws]
                exact joinSp_cons_ne_nil qs hqne
              have hstep : rtrimL (w ++ ' ' :: collapseWs u) =
                  w ++ ' ' :: rtrimL (collapseWs u) := by
                have h1 : w ++ ' ' :: collapseWs u = (w ++ [' ']) ++ collapseWs u := by
                  simp
                rw [h1, rtrim_append_of_ne_nil (w ++ [' ']) hne]
                simp
              rw [hstep, ihu, hws, joinSp_cons₂]
  exact fun l => key l.length l le_rfl

theorem wordsOf_dropWhile (x : Str) : wordsOf (x.dropWhile jsSpace) = wordsOf x := by
  cases x with
  | nil => rfl
  | cons e x2 =>
    by_cases he : jsSpace e = true
    · have hdw : (e :: x2).dropWhile jsSpace = x2.dropWhile jsSpace := by
        rw [List.dropWhile_cons, if_pos he]
      have hr : (e :: x2).dropWhile (fun c => !jsSpace c) = e :: x2 := by
        rw [List.dropWhile_cons, if_neg (by simp [he])]
      have htake : (e :: x2).takeWhile (fun c => !jsSpace c) = [] := by
        rw [List.takeWhile_cons, if_neg (by simp [he])]
      have hsplit := splitWs_eq_of_drop_cons hr
      rw [htake] at hsplit
      rw [hdw]
      conv_rhs => unfold wordsOf
      rw [hsplit]
      show wordsOf (x2.dropWhile jsSpace) = List.filter _ ([] :: _)
      rw [List.filter_cons, if_neg (by decide)]
      rfl
    · have he' : jsSpace e = false := by
        cases hv : jsSpace e
        · rfl
        · exact absurd hv he
      rw [List.dropWhile_cons, if_neg (by rw [he']; exact Bool.false_ne_true)]

theorem wordsOf_joinSp : ∀ (ps : List Str), (∀ p ∈ ps, ∀ c ∈ p, jsSpace c = false) →
    wordsOf (joinSp ps) = ps.filter (fun w => !w.isEmpty) := by
  intro ps
  induction ps with
  | nil => intro _; rfl
  | cons p ps ih =>
    intro h
    cases ps with
    | nil =>
      show wordsOf p = List.filter _ [p]
      have hp : ∀ c ∈ p, jsSpace c = false := h p (List.mem_cons_self _ _)
      have hr : p.dropWhile (fun c => !jsSpace c) = [] :=
        List.dropWhile_eq_nil_iff.mpr (fun c hc => by simp [hp c hc])
      unfold wordsOf
      rw [splitWs_eq_of_drop_nil hr]
    | cons p2 t =>
      rw [joinSp_cons₂]
      have hp : ∀ c ∈ p, jsSpace c = false := h p (List.mem_cons_self _ _)
      have hrest : ∀ q ∈ p2 :: t, ∀ c ∈ q, jsSpace c = false :=
        fun q hq => h q (List.mem_cons_of_mem _ hq)
      have hr := dropWhile_spacefree_sep (joinSp (p2 :: t)) hp (show jsSpace ' ' = true by decide)
      have ht := takeWhile_spacefree_sep (joinSp (p2 :: t)) hp (show jsSpace ' ' = true by decide)
      have hsplit := splitWs_eq_of_drop_cons hr
      rw [ht] at hsplit
      have hwd : wordsOf ((joinSp (p2 :: t)).dropWhile jsSpace) = wordsOf (joinSp (p2 :: t)) :=
        wordsOf_dropWhile _
      unfold wordsOf at hwd ih ⊢
      rw [hsplit]
      conv_rhs => rw [List.filter_cons]
      rw [List.filter_cons, hwd, ih hrest]

theorem joinSp_head_append : ∀ (q : Str) (qs : List Str), ∃ y : Str, joinSp (q :: qs) = q ++ y := by
  intro q qs
  cases qs with
  | nil =>
    refine ⟨[], ?_⟩
    rw [List.append_nil]
    rfl
  | cons x t => exact ⟨' ' :: joinSp (x :: t), rfl⟩

theorem dropWhile_space_append_eq_self {x : Str} (hne : x ≠ [])
    (hsf : ∀ c ∈ x, jsSpace c = false) (y : Str) :
    (x ++ y).dropWhile jsSpace = x ++ y := by
  cases x with
  | nil => exact absurd rfl hne
  | cons a x' =>
    rw [List.cons_append, List.dropWhile_cons,
      if_neg (by rw [hsf a (List.mem_cons_self _ _)]; exact Bool.false_ne_true)]

theorem splitWs_joinSp : ∀ (ps : List Str), (∀ p ∈ ps, p ≠ []) →
    (∀ p ∈ ps, ∀ c ∈ p, jsSpace c = false) → ps ≠ [] →
    splitWs (joinSp ps) = ps := by
  intro ps
  induction ps with
  | nil => intro _ _ h; exact absurd rfl h
  | cons p ps ih =>
    intro h1 h2 _
    cases ps with
    | nil =>
      have hp : ∀ c ∈ p, jsSpace c = false := h2 p (List.mem_cons_self _ _)
      have hr : p.dropWhile (fun c => !jsSpace c) = [] :=
        List.dropWhile_eq_nil_iff.mpr (fun c hc => by simp [hp c hc])
      exact splitWs_eq_of_drop_nil hr
    | cons p2 t =>
      rw [joinSp_cons₂]
      have hp : ∀ c ∈ p, jsSpace c = false := h2 p (List.mem_cons_self _ _)
      have hr := dropWhile_spacefree_sep (joinSp (p2 :: t)) hp (show jsSpace ' ' = true by decide)
      have ht := takeWhile_spacefree_sep (joinSp (p2 :: t)) hp (show jsSpace ' ' = true by decide)
      have hsplit := splitWs_eq_of_drop_cons hr
      rw [ht] at hsplit
      rw [hsplit]
      have hp2ne : p2 ≠ [] := h1 p2 (List.mem_cons_of_mem _ (List.mem_cons_self _ _))
      rcases joinSp_head_append p2 t with ⟨y, hy⟩
      have hdw : (joinSp (p2 :: t)).dropWhile jsSpace = joinSp (p2 :: t) := by
        rw [hy]
        exact dropWhile_space_append_eq_self hp2ne
          (fun c hc => h2 p2 (List.mem_cons_of_mem _ (List.mem_cons_self _ _)) c hc) y
      rw [hdw]
      rw [ih (fun q hq => h1 q (List.mem_cons_of_mem _ hq))
        (fun q hq => h2 q (List.mem_cons_of_mem _ hq)) (by simp)]

/-- The cleaning pipeline computes the single-space join of the kept
nonempty words of the input. -/
theorem cleanTextPipeline_eq (s : Str) :
    cleanTextPipeline s =
      joinSp (((splitWs s).filter keepWord).filter (fun w => !w.isEmpty)) := by
  unfold cleanTextPipeline
  rw [replaceNlNl_collapseWs, trim_collapse]
  unfold removeStopWords
  have hsf : ∀ p ∈ (splitWs s).filter keepWord, ∀ c ∈ p, jsSpace c = false := by
    intro p hp c hc
    exact splitWs_pieces_spacefree s p (List.mem_filter.mp hp).1 c hc
  rw [wordsOf_joinSp _ hsf]

/-- The pipeline is the identity on a join of nonempty, whitespace-free,
kept words. -/
theorem cleanTextPipeline_fixed (ws : List Str) (h1 : ∀ w ∈ ws, w ≠ [])
    (h2 : ∀ w ∈ ws, ∀ c ∈ w, jsSpace c = false) (h3 : ∀ w ∈ ws, keepWord w = true) :
    cleanTextPipeline (joinSp ws) = joinSp ws := by
  cases hws : ws with
  | nil => rfl
  | cons q qs =>
    rw [← hws]
    rw [cleanTextPipeline_eq]
    rw [splitWs_joinSp ws h1 h2 (by rw [hws]; simp)]
    rw [List.filter_eq_self.mpr h3]
    rw [List.filter_eq_self.mpr (by
      intro w hw
      have := h1 w hw
      simp [List.isEmpty_iff, this])]

/-- The pipeline is idempotent. -/
theorem cleanTextPipeline_idem (s : Str) :
    cleanTextPipeline (cleanTextPipeline s) = cleanTextPipeline s := by
  rw [cleanTextPipeline_eq s]
  apply cleanTextPipeline_fixed
  · intro w hw
    have := (List.mem_filter.mp hw).2
    intro he
    rw [he] at this
    simp at this
  · intro w hw c hc
    exact splitWs_pieces_spacefree s w (List.mem_filter.mp (List.mem_filter.mp hw).1).1 c hc
  · intro w hw
    exact (List.mem_filter.mp (List.mem_filter.mp hw).1).2

/-- C6 counterexample: truncation can cut a word so that a stop word
appears, which a second cleaning then removes; cleanText is not
idempotent as universally claimed. -/
theorem c6_counterexample :
    cleanText (cleanText ("z theX".toList) 5) 5 ≠ cleanText ("z theX".toList) 5 := by
  decide

/-- C6 (amended): cleanText is idempotent for every bound that performs
no truncation, that is whenever the cleaned text fits in the bound; with
truncation the cut can create a fresh stop word (see the counterexample). -/
theorem c6_cleanText_idempotent_amended (s : Str) (m : Nat)
    (h : (cleanTextPipeline s).length ≤ m) :
    cleanText (cleanText s m) m = cleanText s m := by
  unfold cleanText
  rw [List.take_of_length_le h, cleanTextPipeline_idem, List.take_of_length_le h]

/-- C6 witness: the amended idempotence law applied at a concrete input. -/
theorem c6_witness :
    (cleanTextPipeline ("hello world".toList)).length ≤ 100 ∧
      cleanText (cleanText ("hello world".toList) 100) 100 =
        cleanText ("hello world".toList) 100 :=
  ⟨by decide, c6_cleanText_idempotent_amended ("hello world".toList) 100 (by decide)⟩

theorem resultQualityScore_nonneg (qws : List Str) (r : SearchResult) :
    0 ≤ resultQualityScore qws r :=
  le_max_left 0 _

theorem resultQualityScore_le_one (qws : List Str) (r : SearchResult) :
    resultQualityScore qws r ≤ 1 := by
  unfold resultQualityScore
  apply max_le (by norm_num)
  have hpen : (0 : ℚ) ≤ (1 / 5 : ℚ) *
      (((irrelevantPatterns.filter
        (fun p => hasSubstr p (combinedTextOf r))).length : ℚ)) := by
    positivity
  have hmin : min 1 (((qws.filter (fun w => hasSubstr w (combinedTextOf r))).length : ℚ) /
      (qws.length : ℚ) + (3 / 10 : ℚ) *
      (((queryPhrases qws).filter (fun p => hasSubstr p (combinedTextOf r))).length : ℚ)) ≤ 1 :=
    min_le_left _ _
  linarith

theorem assessResultQuality_nonneg (results : List SearchResult) (q : Str) :
    0 ≤ assessResultQuality results q := by
  unfold assessResultQuality
  by_cases he : results.isEmpty
  · rw [if_pos he]
  · rw [if_neg he]
    by_cases hq : (queryContentWords q).isEmpty
    · rw [if_pos hq]; norm_num
    · rw [if_neg hq]
      apply div_nonneg
      · apply List.sum_nonneg
        intro x hx
        rcases List.mem_map.mp hx with ⟨r, _, rfl⟩
        exact resultQualityScore_nonneg _ r
      · exact Nat.cast_nonneg _

theorem assessResultQuality_le_one (results : List SearchResult) (q : Str) :
    assessResultQuality results q ≤ 1 := by
  unfold assessResultQuality
  by_cases he : results.isEmpty
  · rw [if_pos he]; norm_num
  · rw [if_neg he]
    by_cases hq : (queryContentWords q).isEmpty
    · rw [if_pos hq]; norm_num
    · rw [if_neg hq]
      have hne : results ≠ [] := by
        intro h; rw [h] at he; exact he rfl
      have hpos : (0 : ℚ) < (results.length : ℚ) := by
        have := List.length_pos.mpr hne
        exact_mod_cast this
      rw [div_le_one hpos]
      have hsum := List.sum_le_card_nsmul (results.map (resultQualityScore (queryContentWords q)))
        1 (by
          intro x hx
          rcases List.mem_map.mp hx with ⟨r, _, rfl⟩
          exact resultQualityScore_le_one _ r)
      rw [List.length_map] at hsum
      calc (results.map (resultQualityScore (queryContentWords q))).sum
          ≤ results.length • (1 : ℚ) := hsum
        _ = (results.length : ℚ) := by rw [nsmul_eq_mul, mul_one]

/-- C8: the relevance score always lies in the closed interval zero-one,
and an empty result list scores zero. -/
theorem c8_score_bounds :
    (∀ (results : List SearchResult) (q : Str),
      0 ≤ assessResultQuality results q ∧ assessResultQuality results q ≤ 1) ∧
    (∀ q : Str, assessResultQuality [] q = 0) :=
  ⟨fun results q => ⟨assessResultQuality_nonneg results q, assessResultQuality_le_one results q⟩,
   fun _ => rfl⟩

theorem pairPhrases_shape : ∀ (ws : List Str), ∀ p ∈ pairPhrases ws,
    ∃ a b, a ∈ ws ∧ p = a ++ b := by
  intro ws
  induction ws with
  | nil => intro p hp; cases hp
  | cons a t ih =>
    cases t with
    | nil => intro p hp; cases hp
    | cons b t2 =>
      intro p hp
      have : pairPhrases (a :: b :: t2) = (a ++ ' ' :: b) :: pairPhrases (b :: t2) := rfl
      rw [this] at hp
      rcases List.mem_cons.mp hp with h1 | h1
      · exact ⟨a, ' ' :: b, List.mem_cons_self _ _, h1⟩
      · rcases ih p h1 with ⟨x, y, hx, hxy⟩
        exact ⟨x, y, List.mem_cons_of_mem _ hx, hxy⟩

theorem queryPhrases_shape (qws : List Str) : ∀ p ∈ queryPhrases qws,
    ∃ a b, a ∈ qws ∧ p = a ++ b := by
  intro p hp
  unfold queryPhrases at hp
  by_cases h2 : 2 ≤ qws.length
  · rw [if_pos h2] at hp
    rcases List.mem_append.mp hp with h | h
    · exact pairPhrases_shape qws p h
    · by_cases h3 : 3 ≤ qws.length
      · rw [if_pos h3] at h
        cases qws with
        | nil => cases h
        | cons a t =>
          cases t with
          | nil => cases h
          | cons b t2 =>
            cases t2 with
            | nil => cases h
            | cons c t3 =>
              rcases List.mem_singleton.mp h with rfl
              exact ⟨a, ' ' :: b ++ ' ' :: c, List.mem_cons_self _ _, by simp⟩
      · rw [if_neg h3] at h
        cases h
  · rw [if_neg h2] at hp
    cases hp

theorem resultQualityScore_zero_of_no_keyword {qws : List Str} {r : SearchResult}
    (h : ∀ w ∈ qws, hasSubstr w (combinedTextOf r) = false) :
    resultQualityScore qws r = 0 := by
  unfold resultQualityScore
  dsimp only
  have hkw : qws.filter (fun w => hasSubstr w (combinedTextOf r)) = [] :=
    List.filter_eq_nil_iff.mpr (fun w hw => by rw [h w hw]; simp)
  have hph : (queryPhrases qws).filter (fun p => hasSubstr p (combinedTextOf r)) = [] := by
    apply List.filter_eq_nil_iff.mpr
    intro p hp hsub
    rcases queryPhrases_shape qws p hp with ⟨a, b, ha, rfl⟩
    have hinf : (a ++ b) <:+: combinedTextOf r := (hasSubstr_iff _ _).mp hsub
    have hainf : a <:+: combinedTextOf r :=
      List.IsInfix.trans (List.IsPrefix.isInfix ⟨b, rfl⟩) hinf
    have := (hasSubstr_iff a (combinedTextOf r)).mpr hainf
    rw [h a ha] at this
    cases this
  rw [hkw, hph]
  simp only [List.length_nil, Nat.cast_zero, zero_div, mul_zero, add_zero]
  have hmin : min (1 : ℚ) 0 = 0 := min_eq_right (by norm_num)
  rw [hmin]
  apply max_eq_left
  have : (0 : ℚ) ≤ (1 / 5 : ℚ) *
      (((irrelevantPatterns.filter (fun p => hasSubstr p (combinedTextOf r))).length : ℚ)) := by
    positivity
  linarith

theorem assessResultQuality_zero_of_no_keyword {B : List SearchResult} {q : Str}
    (hq : queryContentWords q ≠ [])
    (hB : ∀ r ∈ B, ∀ w ∈ queryContentWords q, hasSubstr w (combinedTextOf r) = false) :
    assessResultQuality B q = 0 := by
  unfold assessResultQuality
  by_cases he : B.isEmpty
  · rw [if_pos he]
  · rw [if_neg he]
    rw [if_neg (by
      intro hcon
      exact hq (List.isEmpty_iff.mp hcon))]
    rw [List.sum_eq_zero (by
      intro x hx
      rcases List.mem_map.mp hx with ⟨r, hr, rfl⟩
      exact resultQualityScore_zero_of_no_keyword (hB r hr))]
    rw [zero_div]

/-- C7: keyword-coverage monotonicity. For a query with at least one
content word, a result set whose members each contain every query
content word scores at least as high as one whose members contain none
of them. -/
theorem c7_monotonic_coverage (q : Str) (A B : List SearchResult)
    (hq : queryContentWords q ≠ [])
    (hA : ∀ r ∈ A, ∀ w ∈ queryContentWords q, hasSubstr w (combinedTextOf r) = true)
    (hB : ∀ r ∈ B, ∀ w ∈ queryContentWords q, hasSubstr w (combinedTextOf r) = false) :
    assessResultQuality B q ≤ assessResultQuality A q := by
  rw [assessResultQuality_zero_of_no_keyword hq hB]
  exact assessResultQuality_nonneg A q

/-- C7 witness: monotonicity applied at a concrete query and two
concrete one-element result sets. -/
theorem c7_witness :
    assessResultQuality
        [mkParsedResult [] ("zzz".toList) ("zzz".toList) ("zzz".toList)] ("hello".toList) ≤
      assessResultQuality
        [mkParsedResult [] ("hello".toList) ("https://hello.example".toList)
          ("hello".toList)] ("hello".toList) :=
  c7_monotonic_coverage ("hello".toList)
    [mkParsedResult [] ("hello".toList) ("https://hello.example".toList) ("hello".toList)]
    [mkParsedResult [] ("zzz".toList) ("zzz".toList) ("zzz".toList)]
    (by decide) (by decide) (by decide)

theorem searchGo_nil (cfg : SearchConfig) (query : Str) (bR : List SearchResult)
    (bE : Str) (bQ : ℚ) :
    searchGo cfg query [] bR bE bQ = ⟨[], "None".toList⟩ := rfl

theorem searchGo_cons_error (cfg : SearchConfig) (query : Str) (name : Str) (e : Str)
    (rest : List (Str × AttemptResult)) (bR : List SearchResult) (bE : Str) (bQ : ℚ) :
    searchGo cfg query ((name, Except.error e) :: rest) bR bE bQ =
      searchGo cfg query rest bR bE bQ := rfl

theorem searchGo_cons_ok_empty (cfg : SearchConfig) (query : Str) (name : Str)
    (rest : List (Str × AttemptResult)) (bR : List SearchResult) (bE : Str) (bQ : ℚ) :
    searchGo cfg query ((name, Except.ok ([] : List SearchResult)) :: rest) bR bE bQ =
      searchGo cfg query rest bR bE bQ := rfl

theorem searchGo_cons_ok (cfg : SearchConfig) (query : Str) (name : Str)
    (results : List SearchResult) (rest : List (Str × AttemptResult))
    (bR : List SearchResult) (bE : Str) (bQ : ℚ) (hne : results.isEmpty = false) :
    searchGo cfg query ((name, Except.ok results) :: rest) bR bE bQ =
      (let q : ℚ := if cfg.enableQualityCheck then assessResultQuality results query else 1
       let best := if bQ < q then (results, name, q) else (bR, bE, bQ)
       if (4 / 5 : ℚ) ≤ q ∧ cfg.forceMultiEngine = false then ⟨results, name⟩
       else if cfg.qualityThreshold ≤ q ∧ name ≠ "Browser Bing".toList ∧
           cfg.forceMultiEngine = false then ⟨results, name⟩
       else if rest.isEmpty then
         (if cfg.qualityThreshold ≤ best.2.2 ∨ cfg.enableQualityCheck = false then
           ⟨best.1, best.2.1⟩
         else if !best.1.isEmpty then ⟨best.1, best.2.1⟩
         else ⟨[], "None".toList⟩)
       else searchGo cfg query rest best.1 best.2.1 best.2.2) := by
  simp only [searchGo, hne]
  rfl

/-- C4: with relevance checking on and multi-engine forcing off, an
attempt with results scoring at or above the high-confidence bar (0.8),
or at or above the configured threshold when the attempt is not the
primary Browser Bing backend, makes the orchestrator return exactly that
attempt's results at once: the outcome does not depend on (and consults
none of) the remaining backends. -/
theorem c4_short_circuit (cfg : SearchConfig) (query : Str) (name : Str)
    (results : List SearchResult) (rest : List (Str × AttemptResult))
    (bR : List SearchResult) (bE : Str) (bQ : ℚ)
    (hc : cfg.enableQualityCheck = true) (hf : cfg.forceMultiEngine = false)
    (hne : results ≠ [])
    (hcond : (4 / 5 : ℚ) ≤ assessResultQuality results query ∨
      (cfg.qualityThreshold ≤ assessResultQuality results query ∧
        name ≠ "Browser Bing".toList)) :
    searchGo cfg query ((name, Except.ok results) :: rest) bR bE bQ =
      ⟨results, name⟩ := by
  rw [searchGo_cons_ok cfg query name results rest bR bE bQ
    (by cases results with
        | nil => exact absurd rfl hne
        | cons a t => rfl)]
  dsimp only
  rw [hc]
  rw [if_pos rfl]
  by_cases h1 : (4 / 5 : ℚ) ≤ assessResultQuality results query ∧
      cfg.forceMultiEngine = false
  · rw [if_pos h1]
  · rw [if_neg h1]
    have h2 : cfg.qualityThreshold ≤ assessResultQuality results query ∧
        name ≠ "Browser Bing".toList ∧ cfg.forceMultiEngine = false := by
      rcases hcond with h | ⟨ha, hb⟩
      · exact absurd ⟨h, hf⟩ h1
      · exact ⟨ha, hb, hf⟩
    rw [if_pos h2]

theorem queryContentWords_hello :
    queryContentWords ("hello".toList) = [("hello".toList)] := by decide

theorem assess_hello_concrete :
    assessResultQuality
        [mkParsedResult [] ("hello".toList) ("https://hello.example".toList)
          ("hello".toList)] ("hello".toList) = 1 := by
  unfold assessResultQuality
  rw [if_neg (by decide), queryContentWords_hello, if_neg (by decide)]
  have hscore : resultQualityScore [("hello".toList)]
      (mkParsedResult [] ("hello".toList) ("https://hello.example".toList)
        ("hello".toList)) = 1 := by
    unfold resultQualityScore
    dsimp only
    rw [show (queryPhrases [("hello".toList)]).filter
        (fun p => hasSubstr p (combinedTextOf (mkParsedResult [] ("hello".toList)
          ("https://hello.example".toList) ("hello".toList)))) = [] from by decide]
    rw [show ([("hello".toList)]).filter
        (fun w => hasSubstr w (combinedTextOf (mkParsedResult [] ("hello".toList)
          ("https://hello.example".toList) ("hello".toList)))) = [("hello".toList)] from by
      decide]
    rw [show irrelevantPatterns.filter
        (fun p => hasSubstr p (combinedTextOf (mkParsedResult [] ("hello".toList)
          ("https://hello.example".toList) ("hello".toList)))) = [] from by decide]
    norm_num
  rw [List.map_cons, List.map_nil, hscore]
  norm_num

/-- C4 witness: the short-circuit applied with a perfectly matching
single result on the first backend, for the default configuration. -/
theorem c4_witness :
    searchGo ⟨true, 3 / 10, false⟩ ("hello".toList)
        [("Browser Bing".toList,
          Except.ok [mkParsedResult [] ("hello".toList) ("https://hello.example".toList)
            ("hello".toList)]),
         ("Browser Brave".toList, Except.error ("not reached".toList))]
        [] ("None".toList) 0 =
      ⟨[mkParsedResult [] ("hello".toList) ("https://hello.example".toList)
        ("hello".toList)], "Browser Bing".toList⟩ :=
  c4_short_circuit ⟨true, 3 / 10, false⟩ ("hello".toList) ("Browser Bing".toList)
    [mkParsedResult [] ("hello".toList) ("https://hello.example".toList) ("hello".toList)]
    [("Browser Brave".toList, Except.error ("not reached".toList))]
    [] ("None".toList) 0 rfl rfl (by decide)
    (Or.inl (by rw [assess_hello_concrete]; norm_num))

theorem searchGo_shape (cfg : SearchConfig) (query : Str) :
    ∀ (atts atts0 : List (Str × AttemptResult)) (bR : List SearchResult) (bE : Str) (bQ : ℚ),
    (∀ a ∈ atts, a ∈ atts0) →
    ((bR = [] ∧ bE = "None".toList) ∨
      (bR ≠ [] ∧ ∃ rs, (bE, Except.ok rs) ∈ atts0 ∧ bR = rs)) →
    ((searchGo cfg query atts bR bE bQ).results = [] ∧
        (searchGo cfg query atts bR bE bQ).engine = "None".toList) ∨
      ((searchGo cfg query atts bR bE bQ).results ≠ [] ∧
        ∃ rs, ((searchGo cfg query atts bR bE bQ).engine, Except.ok rs) ∈ atts0 ∧
          (searchGo cfg query atts bR bE bQ).results = rs) := by
  intro atts
  induction atts with
  | nil =>
    intro atts0 bR bE bQ _ _
    rw [searchGo_nil]
    exact Or.inl ⟨rfl, rfl⟩
  | cons head rest ih =>
    intro atts0 bR bE bQ hsub hbest
    obtain ⟨name, att⟩ := head
    have hsubrest : ∀ a ∈ rest, a ∈ atts0 :=
      fun a ha => hsub a (List.mem_cons_of_mem _ ha)
    cases att with
    | error e =>
      rw [searchGo_cons_error]
      exact ih atts0 bR bE bQ hsubrest hbest
    | ok results =>
      cases results with
      | nil =>
        rw [searchGo_cons_ok_empty]
        exact ih atts0 bR bE bQ hsubrest hbest
      | cons r0 rtail =>
        have hmem : (name, Except.ok (r0 :: rtail)) ∈ atts0 :=
          hsub _ (List.mem_cons_self _ _)
        rw [searchGo_cons_ok cfg query name (r0 :: rtail) rest bR bE bQ rfl]
        dsimp only
        set q : ℚ :=
          (if cfg.enableQualityCheck then assessResultQuality (r0 :: rtail) query else 1)
          with hqdef
        set best := (if bQ < q then (r0 :: rtail, name, q) else (bR, bE, bQ)) with hbdef
        have hbestInv : (best.1 = [] ∧ best.2.1 = "None".toList) ∨
            (best.1 ≠ [] ∧ ∃ rs, (best.2.1, Except.ok rs) ∈ atts0 ∧ best.1 = rs) := by
          rw [hbdef]
          by_cases hlt : bQ < q
          · rw [if_pos hlt]
            exact Or.inr ⟨by simp, ⟨r0 :: rtail, hmem, rfl⟩⟩
          · rw [if_neg hlt]
            exact hbest
        by_cases h1 : (4 / 5 : ℚ) ≤ q ∧ cfg.forceMultiEngine = false
        · rw [if_pos h1]
          exact Or.inr ⟨by simp, ⟨r0 :: rtail, hmem, rfl⟩⟩
        · rw [if_neg h1]
          by_cases h2 : cfg.qualityThreshold ≤ q ∧ name ≠ "Browser Bing".toList ∧
              cfg.forceMultiEngine = false
          · rw [if_pos h2]
            exact Or.inr ⟨by simp, ⟨r0 :: rtail, hmem, rfl⟩⟩
          · rw [if_neg h2]
            by_cases h3 : rest.isEmpty = true
            · rw [if_pos h3]
              by_cases h4 : cfg.qualityThreshold ≤ best.2.2 ∨ cfg.enableQualityCheck = false
              · rw [if_pos h4]
                rcases hbestInv with ⟨hb1, hb2⟩ | ⟨hb1, rs, hmem2, hb3⟩
                · exact Or.inl ⟨hb1, hb2⟩
                · exact Or.inr ⟨hb1, rs, hmem2, hb3⟩
              · rw [if_neg h4]
                by_cases h5 : (!best.1.isEmpty) = true
                · rw [if_pos h5]
                  rcases hbestInv with ⟨hb1, _⟩ | hgood
                  · exfalso
                    rw [hb1] at h5
                    simp at h5
                  · exact Or.inr hgood
                · rw [if_neg h5]
                  exact Or.inl ⟨rfl, rfl⟩
            · rw [if_neg h3]
              exact ih atts0 best.1 best.2.1 best.2.2 hsubrest hbestInv

/-- C1: whenever the rate governor admits the call, search returns an
ok outcome (backend attempt errors are caught, never propagated), and the
outcome is either a non-empty results list paired with the name of the
attempt that produced exactly those results, or an empty list with the
engine sentinel None. -/
theorem c1_search_outcome_shape (st : RateLimiterState) (now : Int) (cfg : SearchConfig)
    (query : Str) (attempts : List AttemptResult)
    (h : rateLimiterEffectiveCount st now < st.maxRequestsPerMinute) :
    ∃ o : SearchOutcome, search st now cfg query attempts = .ok o ∧
      ((o.results = [] ∧ o.engine = "None".toList) ∨
        (o.results ≠ [] ∧ ∃ rs, (o.engine, Except.ok rs) ∈ searchNames.zip attempts ∧
          o.results = rs)) := by
  unfold search rateLimiterExecute
  rw [if_neg (Nat.not_le.mpr h)]
  exact ⟨_, rfl, searchGo_shape cfg (sanitizeQuery query) (searchNames.zip attempts)
    (searchNames.zip attempts) [] ("None".toList) 0 (fun a ha => ha) (Or.inl ⟨rfl, rfl⟩)⟩

/-- C1 witness: the shape theorem applied with a fresh rate limiter and a
mix of throwing and succeeding backend attempts. -/
theorem c1_witness :
    rateLimiterEffectiveCount ⟨0, 0, 10⟩ 0 < 10 ∧
      ∃ o : SearchOutcome,
        search ⟨0, 0, 10⟩ 0 ⟨true, 3 / 10, false⟩ ("hello".toList)
            [Except.error ("browser died".toList),
             Except.ok [mkParsedResult [] ("hello".toList)
               ("https://hello.example".toList) ("hello".toList)],
             Except.error ("network".toList)] = .ok o ∧
          ((o.results = [] ∧ o.engine = "None".toList) ∨
            (o.results ≠ [] ∧ ∃ rs, (o.engine, Except.ok rs) ∈
              searchNames.zip
                [Except.error ("browser died".toList),
                 Except.ok [mkParsedResult [] ("hello".toList)
                   ("https://hello.example".toList) ("hello".toList)],
                 Except.error ("network".toList)] ∧
              o.results = rs)) :=
  ⟨by decide,
   c1_search_outcome_shape ⟨0, 0, 10⟩ 0 ⟨true, 3 / 10, false⟩ ("hello".toList)
     [Except.error ("browser died".toList),
      Except.ok [mkParsedResult [] ("hello".toList)
        ("https://hello.example".toList) ("hello".toList)],
      Except.error ("network".toList)] (by decide)⟩

theorem fetchStatus_beq_iff (a b : FetchStatus) : (a == b) = true ↔ a = b := by
  cases a <;> cases b <;> simp_all <;> rfl

theorem enhanceSuccess_title (now : Str) (cap : Nat) (r : SearchResult) (c : Str) :
    (enhanceSuccess now cap r c).title = r.title := rfl

theorem enhanceSuccess_url (now : Str) (cap : Nat) (r : SearchResult) (c : Str) :
    (enhanceSuccess now cap r c).url = r.url := rfl

theorem enhanceSuccess_description (now : Str) (cap : Nat) (r : SearchResult) (c : Str) :
    (enhanceSuccess now cap r c).description = r.description := rfl

theorem enhanceFailure_title (now : Str) (r : SearchResult) (e : Str) :
    (enhanceFailure now r e).title = r.title := rfl

theorem enhanceFailure_url (now : Str) (r : SearchResult) (e : Str) :
    (enhanceFailure now r e).url = r.url := rfl

theorem enhanceFailure_description (now : Str) (r : SearchResult) (e : Str) :
    (enhanceFailure now r e).description = r.description := rfl

/-- Every entry of the enhanced batch output arises from one non-PDF
input result through the success or the failure record builder. -/
theorem enhancedBatch_mem (extract : Str → Except Str Str) (now : Str) (instMax : Nat)
    (results : List SearchResult) (targetCount : Nat) :
    ∀ r ∈ EnhancedContentExtractor.extractContentForResults extract now instMax
        results targetCount,
      ∃ src ∈ results, isPdfUrl src.url = false ∧
        ((∃ c, extract src.url = .ok c ∧ r = enhanceSuccess now instMax src c) ∨
          (∃ e, extract src.url = .error e ∧ r = enhanceFailure now src e)) := by
  intro r hr
  unfold EnhancedContentExtractor.extractContentForResults at hr
  have hr1 := List.mem_of_mem_take hr
  have hr2 : r ∈ ((results.filter (fun x => !isPdfUrl x.url)).take
      (min (targetCount * 2) 10)).map (fun x =>
        match extract x.url with
        | .ok content => enhanceSuccess now instMax x content
        | .error e => enhanceFailure now x e) := by
    rcases List.mem_append.mp hr1 with h | h
    · exact (List.mem_filter.mp (List.mem_of_mem_take h)).1
    · exact (List.mem_filter.mp (List.mem_of_mem_take h)).1
  rcases List.mem_map.mp hr2 with ⟨src, hsrc, hmap⟩
  have hsrc2 := List.mem_of_mem_take hsrc
  refine ⟨src, (List.mem_filter.mp hsrc2).1, ?_, ?_⟩
  · have := (List.mem_filter.mp hsrc2).2
    cases hv : isPdfUrl src.url
    · rfl
    · rw [hv] at this; simp at this
  · cases hex : extract src.url with
    | ok c =>
      left
      exact ⟨c, rfl, by rw [← hmap, hex]⟩
    | error e =>
      right
      exact ⟨e, rfl, by rw [← hmap, hex]⟩

/-- Every entry of the plain sequential batch output arises from one
non-PDF input result through the success or the failure record builder. -/
theorem simpleBatchGo_mem (extract : Str → Except Str Str) (now : Str) (instMax : Nat)
    (targetCount : Nat) :
    ∀ (l : List SearchResult) (got : Nat),
      ∀ r ∈ ContentExtractor.extractContentForResultsGo extract now instMax targetCount l got,
        ∃ src ∈ l, isPdfUrl src.url = false ∧
          ((∃ c, extract src.url = .ok c ∧ r = enhanceSuccess now instMax src c) ∨
            (∃ e, extract src.url = .error e ∧ r = enhanceFailure now src e)) := by
  intro l
  induction l with
  | nil => intro got r hr; cases hr
  | cons x rest ih =>
    intro got r hr
    unfold ContentExtractor.extractContentForResultsGo at hr
    by_cases h1 : targetCount ≤ got
    · rw [if_pos h1] at hr; cases hr
    · rw [if_neg h1] at hr
      by_cases h2 : isPdfUrl x.url = true
      · rw [if_pos h2] at hr
        rcases ih got r hr with ⟨src, hsrc, hrest⟩
        exact ⟨src, List.mem_cons_of_mem _ hsrc, hrest⟩
      · rw [if_neg h2] at hr
        rcases List.mem_cons.mp hr with h | h
        · refine ⟨x, List.mem_cons_self _ _, ?_, ?_⟩
          · cases hv : isPdfUrl x.url
            · rfl
            · exact absurd hv h2
          · cases hex : extract x.url with
            | ok c => exact Or.inl ⟨c, rfl, by rw [h, hex]⟩
            | error e => exact Or.inr ⟨e, rfl, by rw [h, hex]⟩
        · rcases ih (got + 1) r h with ⟨src, hsrc, hrest⟩
          exact ⟨src, List.mem_cons_of_mem _ hsrc, hrest⟩

theorem simpleBatchGo_length (extract : Str → Except Str Str) (now : Str) (instMax : Nat)
    (targetCount : Nat) :
    ∀ (l : List SearchResult) (got : Nat),
      (ContentExtractor.extractContentForResultsGo extract now instMax targetCount l got).length
        ≤ targetCount - got := by
  intro l
  induction l with
  | nil => intro got; simp [ContentExtractor.extractContentForResultsGo]
  | cons x rest ih =>
    intro got
    unfold ContentExtractor.extractContentForResultsGo
    by_cases h1 : targetCount ≤ got
    · rw [if_pos h1]; simp
    · rw [if_neg h1]
      by_cases h2 : isPdfUrl x.url = true
      · rw [if_pos h2]; exact ih got
      · rw [if_neg h2]
        have := ih (got + 1)
        simp only [List.length_cons]
        omega

/-- C3: both batch extractors return at most targetCount entries and
never an entry whose URL is a PDF resource (PDF inputs are skipped, not
reported as errors). -/
theorem c3_batch_bounds_no_pdf (extract : Str → Except Str Str) (now : Str) (instMax : Nat)
    (results : List SearchResult) (targetCount : Nat) :
    ((EnhancedContentExtractor.extractContentForResults extract now instMax results
        targetCount).length ≤ targetCount ∧
      ∀ r ∈ EnhancedContentExtractor.extractContentForResults extract now instMax results
        targetCount, isPdfUrl r.url = false) ∧
    ((ContentExtractor.extractContentForResults extract now instMax results
        targetCount).length ≤ targetCount ∧
      ∀ r ∈ ContentExtractor.extractContentForResults extract now instMax results
        targetCount, isPdfUrl r.url = false) := by
  refine ⟨⟨?_, ?_⟩, ⟨?_, ?_⟩⟩
  · unfold EnhancedContentExtractor.extractContentForResults
    exact List.length_take_le _ _
  · intro r hr
    rcases enhancedBatch_mem extract now instMax results targetCount r hr with
      ⟨src, _, hpdf, hcase⟩
    rcases hcase with ⟨c, _, rfl⟩ | ⟨e, _, rfl⟩
    · rw [enhanceSuccess_url]; exact hpdf
    · rw [enhanceFailure_url]; exact hpdf
  · unfold ContentExtractor.extractContentForResults
    have := simpleBatchGo_length extract now instMax targetCount results 0
    omega
  · intro r hr
    unfold ContentExtractor.extractContentForResults at hr
    rcases simpleBatchGo_mem extract now instMax targetCount results 0 r hr with
      ⟨src, _, hpdf, hcase⟩
    rcases hcase with ⟨c, _, rfl⟩ | ⟨e, _, rfl⟩
    · rw [enhanceSuccess_url]; exact hpdf
    · rw [enhanceFailure_url]; exact hpdf

/-- C3 witness: the bounds applied at a concrete input containing a PDF
URL, instantiating both the length bound and the PDF-free property at a
concrete output entry. -/
theorem c3_witness :
    ((EnhancedContentExtractor.extractContentForResults
        (fun _ => Except.ok ("plain words".toList)) [] 100
        [mkParsedResult [] ("t".toList) ("https://a.example/doc.pdf".toList) ("d".toList),
         mkParsedResult [] ("t".toList) ("https://a.example/page".toList) ("d".toList)]
        1).length ≤ 1 ∧
      isPdfUrl (enhanceSuccess [] 100
        (mkParsedResult [] ("t".toList) ("https://a.example/page".toList) ("d".toList))
        ("plain words".toList)).url = false) ∧
    (ContentExtractor.extractContentForResults
        (fun _ => Except.ok ("plain words".toList)) [] 100
        [mkParsedResult [] ("t".toList) ("https://a.example/doc.pdf".toList) ("d".toList),
         mkParsedResult [] ("t".toList) ("https://a.example/page".toList) ("d".toList)]
        1).length ≤ 1 :=
  ⟨⟨(c3_batch_bounds_no_pdf (fun _ => Except.ok ("plain words".toList)) [] 100
      [mkParsedResult [] ("t".toList) ("https://a.example/doc.pdf".toList) ("d".toList),
       mkParsedResult [] ("t".toList) ("https://a.example/page".toList) ("d".toList)]
      1).1.1,
    (c3_batch_bounds_no_pdf (fun _ => Except.ok ("plain words".toList)) [] 100
      [mkParsedResult [] ("t".toList) ("https://a.example/doc.pdf".toList) ("d".toList),
       mkParsedResult [] ("t".toList) ("https://a.example/page".toList) ("d".toList)]
      1).1.2 _ (by decide)⟩,
   (c3_batch_bounds_no_pdf (fun _ => Except.ok ("plain words".toList)) [] 100
      [mkParsedResult [] ("t".toList) ("https://a.example/doc.pdf".toList) ("d".toList),
       mkParsedResult [] ("t".toList) ("https://a.example/page".toList) ("d".toList)]
      1).2.1⟩

theorem take_append_status (A B : List SearchResult) (t : Nat)
    (hA : ∀ a ∈ A, a.fetchStatus = .success) (hB : ∀ b ∈ B, b.fetchStatus = .error)
    (i j : Nat) (hij : i < j) (hj : j < ((A ++ B).take t).length)
    (hsucc : (((A ++ B).take t).get ⟨j, hj⟩).fetchStatus = .success) :
    (((A ++ B).take t).get ⟨i, Nat.lt_trans hij hj⟩).fetchStatus = .success := by
  have hjlen : j < (A ++ B).length := by
    have := hj
    rw [List.length_take] at this
    omega
  have hilen : i < (A ++ B).length := Nat.lt_trans hij hjlen
  have hjget : ((A ++ B).take t).get ⟨j, hj⟩ = (A ++ B).get ⟨j, hjlen⟩ := by
    rw [List.get_eq_getElem, List.get_eq_getElem]
    exact List.getElem_take _
  have higet : ((A ++ B).take t).get ⟨i, Nat.lt_trans hij hj⟩ = (A ++ B).get ⟨i, hilen⟩ := by
    rw [List.get_eq_getElem, List.get_eq_getElem]
    exact List.getElem_take _
  rw [hjget] at hsucc
  rw [higet]
  by_cases hjA : j < A.length
  · have hiA : i < A.length := Nat.lt_trans hij hjA
    rw [List.get_eq_getElem, List.getElem_append_left hiA]
    exact hA _ (List.getElem_mem _)
  · exfalso
    have hAle : A.length ≤ j := Nat.le_of_not_lt hjA
    rw [List.get_eq_getElem, List.getElem_append_right hAle] at hsucc
    have herr := hB _ (List.getElem_mem (l := B) (n := j - A.length)
      (h := by rw [List.length_append] at hjlen; omega))
    rw [hsucc] at herr
    cases herr

/-- C9: in the enhanced batch output every successful entry precedes
every failed one — whenever the entry at a later index j is a success,
so is every earlier entry. -/
theorem c9_success_first (extract : Str → Except Str Str) (now : Str) (instMax : Nat)
    (results : List SearchResult) (targetCount : Nat) (i j : Nat) (hij : i < j)
    (hj : j < (EnhancedContentExtractor.extractContentForResults extract now instMax
      results targetCount).length)
    (hsucc : ((EnhancedContentExtractor.extractContentForResults extract now instMax
      results targetCount).get ⟨j, hj⟩).fetchStatus = .success) :
    ((EnhancedContentExtractor.extractContentForResults extract now instMax
      results targetCount).get ⟨i, Nat.lt_trans hij hj⟩).fetchStatus = .success := by
  unfold EnhancedContentExtractor.extractContentForResults at hj hsucc ⊢
  refine take_append_status _ _ targetCount ?_ ?_ i j hij hj hsucc
  · intro a ha
    have := (List.mem_filter.mp (List.mem_of_mem_take ha)).2
    exact (fetchStatus_beq_iff _ _).mp this
  · intro b hb
    have := (List.mem_filter.mp (List.mem_of_mem_take hb)).2
    exact (fetchStatus_beq_iff _ _).mp this

/-- C9 witness: the ordering law applied at a two-success concrete batch. -/
theorem c9_witness :
    ((EnhancedContentExtractor.extractContentForResults
        (fun _ => Except.ok ("plain words".toList)) [] 100
        [mkParsedResult [] ("t".toList) ("https://a.example/page".toList) ("d".toList),
         mkParsedResult [] ("u".toList) ("https://b.example/page".toList) ("e".toList)]
        2).get ⟨0, by decide⟩).fetchStatus = .success :=
  c9_success_first (fun _ => Except.ok ("plain words".toList)) [] 100
    [mkParsedResult [] ("t".toList) ("https://a.example/page".toList) ("d".toList),
     mkParsedResult [] ("u".toList) ("https://b.example/page".toList) ("e".toList)]
    2 0 1 (by decide) (by decide) (by decide)

/-- C10: every output entry of either batch extractor keeps the title,
url and description of the one input result it was derived from, on both
the success and the failure branch. -/
theorem c10_frame_fields (extract : Str → Except Str Str) (now : Str) (instMax : Nat)
    (results : List SearchResult) (targetCount : Nat) :
    (∀ r ∈ EnhancedContentExtractor.extractContentForResults extract now instMax results
        targetCount, ∃ src ∈ results,
        r.title = src.title ∧ r.url = src.url ∧ r.description = src.description) ∧
    (∀ r ∈ ContentExtractor.extractContentForResults extract now instMax results
        targetCount, ∃ src ∈ results,
        r.title = src.title ∧ r.url = src.url ∧ r.description = src.description) := by
  constructor
  · intro r hr
    rcases enhancedBatch_mem extract now instMax results targetCount r hr with
      ⟨src, hsrc, _, hcase⟩
    refine ⟨src, hsrc, ?_⟩
    rcases hcase with ⟨c, _, rfl⟩ | ⟨e, _, rfl⟩
    · exact ⟨rfl, rfl, rfl⟩
    · exact ⟨rfl, rfl, rfl⟩
  · intro r hr
    unfold ContentExtractor.extractContentForResults at hr
    rcases simpleBatchGo_mem extract now instMax targetCount results 0 r hr with
      ⟨src, hsrc, _, hcase⟩
    refine ⟨src, hsrc, ?_⟩
    rcases hcase with ⟨c, _, rfl⟩ | ⟨e, _, rfl⟩
    · exact ⟨rfl, rfl, rfl⟩
    · exact ⟨rfl, rfl, rfl⟩

/-- C10 witness: the frame property applied at a concrete output entry
of the enhanced extractor. -/
theorem c10_witness :
    ∃ src ∈ [mkParsedResult [] ("t".toList) ("https://a.example/page".toList) ("d".toList)],
      (enhanceSuccess [] 100
        (mkParsedResult [] ("t".toList) ("https://a.example/page".toList) ("d".toList))
        ("plain words".toList)).title = src.title ∧
      (enhanceSuccess [] 100
        (mkParsedResult [] ("t".toList) ("https://a.example/page".toList) ("d".toList))
        ("plain words".toList)).url = src.url ∧
      (enhanceSuccess [] 100
        (mkParsedResult [] ("t".toList) ("https://a.example/page".toList) ("d".toList))
        ("plain words".toList)).description = src.description :=
  (c10_frame_fields (fun _ => Except.ok ("plain words".toList)) [] 100
    [mkParsedResult [] ("t".toList) ("https://a.example/page".toList) ("d".toList)] 1).1
    _ (by decide)

/-- C5 counterexample: with the instance cap set to 100 characters, a
call with maxContentLength = 0 still returns content cut to 100
characters although the fully cleaned page text has 143 characters (the
cap inside parseContent still applies); and on the browser fallback path
a positive per-call bound of 5 is ignored entirely, the returned content
having 100 characters. -/
theorem c5_counterexample :
    (extractContent (fun _ => Except.ok []) (fun _ => Except.error ("no".toList))
        (fun _ => longWordText) (mkMaxContentLength (some 100))
        ("https://a.example/page".toList) (some 0) =
      Except.ok (cleanText longWordText 100) ∧
      (cleanText longWordText 100).length = 100 ∧
      100 < (cleanTextPipeline longWordText).length) ∧
    (extractContent (fun _ => Except.error ⟨some 403, [], []⟩) (fun _ => Except.ok [])
        (fun _ => longWordText) (mkMaxContentLength (some 100))
        ("https://a.example/page".toList) (some 5) =
      Except.ok (cleanText longWordText 100) ∧
      5 < (cleanText longWordText 100).length) := by
  refine ⟨⟨?_, ?_, ?_⟩, ⟨?_, ?_⟩⟩
  · rfl
  · decide
  · decide
  · rfl
  · decide

/-- C5 (amended): the truncation law holds in this weaker form. On the
direct-HTTP path a positive maxContentLength n bounds the returned
content by n; a zero maxContentLength skips the explicit truncation step
but the content is still the parseContent output, which is bounded by the
instance-level cap; the browser path ignores the per-call bound and is
bounded only by the instance-level cap. -/
theorem c5_truncation_amended :
    (∀ (fetch : Str → Except AxiosError Str) (em : Str → Str) (instMax : Nat)
        (url : Str) (n : Nat) (c : Str), 0 < n →
        extractWithAxios fetch em instMax url (some n) = .ok c → c.length ≤ n) ∧
    (∀ (fetch : Str → Except AxiosError Str) (em : Str → Str) (instMax : Nat)
        (url : Str) (data c : Str), fetch url = .ok data →
        extractWithAxios fetch em instMax url (some 0) = .ok c →
        c = parseContent em instMax data ∧ c.length ≤ instMax) ∧
    (∀ (render : Str → Except Str Str) (em : Str → Str) (instMax : Nat)
        (url : Str) (c : Str), extractWithBrowser render em instMax url = .ok c →
        c.length ≤ instMax) := by
  refine ⟨?_, ?_, ?_⟩
  · intro fetch em instMax url n c hn heq
    unfold extractWithAxios at heq
    cases hfu : fetch url with
    | error e => rw [hfu] at heq; simp at heq
    | ok data =>
      rw [hfu] at heq
      dsimp only at heq
      by_cases htr : (some n).getD instMax ≠ 0 ∧
          (some n).getD instMax < (parseContent em instMax data).length
      · rw [if_pos htr] at heq
        by_cases hlq : isLowQualityContent
            ((parseContent em instMax data).take ((some n).getD instMax)) = true
        · rw [if_pos hlq] at heq; simp at heq
        · rw [if_neg hlq] at heq
          simp only [Except.ok.injEq] at heq
          rw [← heq]
          simp only [Option.getD_some]
          exact List.length_take_le _ _
      · rw [if_neg htr] at heq
        by_cases hlq : isLowQualityContent (parseContent em instMax data) = true
        · rw [if_pos hlq] at heq; simp at heq
        · rw [if_neg hlq] at heq
          simp only [Except.ok.injEq] at heq
          rw [← heq]
          simp only [Option.getD_some] at htr
          by_contra hcon
          push_neg at hcon
          exact htr ⟨by omega, hcon⟩
  · intro fetch em instMax url data c hfu heq
    unfold extractWithAxios at heq
    rw [hfu] at heq
    dsimp only at heq
    simp only [Option.getD_some] at heq
    have hcond : ¬((0 : Nat) ≠ 0 ∧ (0 : Nat) < (parseContent em instMax data).length) := by
      simp
    rw [if_neg hcond] at heq
    by_cases hlq : isLowQualityContent (parseContent em instMax data) = true
    · rw [if_pos hlq] at heq; simp at heq
    · rw [if_neg hlq] at heq
      simp only [Except.ok.injEq] at heq
      refine ⟨heq.symm, ?_⟩
      rw [← heq]
      unfold parseContent cleanText
      exact List.length_take_le _ _
  · intro render em instMax url c heq
    unfold extractWithBrowser at heq
    cases hru : render url with
    | error e => rw [hru] at heq; simp at heq
    | ok html =>
      rw [hru] at heq
      simp only [Except.ok.injEq] at heq
      rw [← heq]
      unfold parseContent cleanText
      exact List.length_take_le _ _

/-- C5 witness: the amended law applied on the direct-HTTP path at a
concrete fetch, page and positive bound. -/
theorem c5_witness : (cleanText longWordText 100).length ≤ 120 :=
  c5_truncation_amended.1 (fun _ => Except.ok ("page data".toList))
    (fun _ => longWordText) 100 ("https://a.example".toList) 120
    (cleanText longWordText 100) (by decide) (by rfl)

/-! ## Percent-encoding round-trip lemmas -/

/-- Every list starts with itself (followed by anything). -/
theorem startsWithL_refl_append (p s : Str) : startsWithL p (p ++ s) = true := by
  induction p with
  | nil => rfl
  | cons a t ih => simp [startsWithL, ih]

/-- Code points of characters are below 1114112. -/
theorem char_toNat_lt (c : Char) : c.toNat < 1114112 := by
  rcases c.valid with h | ⟨h1, h2⟩
  · unfold Char.toNat
    omega
  · unfold Char.toNat
    omega

/-- Valid code points give UTF-8 bytes below 256. -/
theorem utf8EncodeChar_lt (n : Nat) (hn : n < 1114112) :
    ∀ b ∈ utf8EncodeChar n, b < 256 := by
  intro b hb
  unfold utf8EncodeChar at hb
  split_ifs at hb with h1 h2 h3
  · simp only [List.mem_singleton] at hb
    omega
  · simp only [List.mem_cons, List.not_mem_nil, or_false] at hb
    rcases hb with rfl | rfl <;> omega
  · simp only [List.mem_cons, List.not_mem_nil, or_false] at hb
    rcases hb with rfl | rfl | rfl <;> omega
  · simp only [List.mem_cons, List.not_mem_nil, or_false] at hb
    rcases hb with rfl | rfl | rfl | rfl <;> omega

/-- An ASCII code point is its own UTF-8 encoding. -/
theorem utf8EncodeChar_ascii {n : Nat} (h : n < 128) : utf8EncodeChar n = [n] := by
  unfold utf8EncodeChar
  rw [if_pos h]

/-- hexVal inverts hexDigitChar below 16. -/
theorem hexVal_hexDigitChar (n : Nat) (h : n < 16) : hexVal (hexDigitChar n) = some n := by
  interval_cases n <;> decide

/-- hexDigitChar lands in the decimal-digit or upper-hex letter range. -/
theorem hexDigitChar_range (n : Nat) (h : n < 16) :
    ('0' ≤ hexDigitChar n ∧ hexDigitChar n ≤ '9') ∨
    ('A' ≤ hexDigitChar n ∧ hexDigitChar n ≤ 'F') := by
  interval_cases n <;> decide

/-- Characters of one encoded character are unreserved, a percent sign,
a decimal digit or an upper-case hex letter. -/
theorem mem_encURIChar (c : Char) (x : Char) (hx : x ∈ encURIChar c) :
    uriUnreserved x = true ∨ x = '%' ∨
    ('0' ≤ x ∧ x ≤ '9') ∨ ('A' ≤ x ∧ x ≤ 'F') := by
  unfold encURIChar at hx
  split_ifs at hx with h
  · simp only [List.mem_singleton] at hx
    subst hx
    exact Or.inl h
  · simp only [List.mem_flatten, List.mem_map] at hx
    obtain ⟨l, ⟨b, hb, rfl⟩, hxl⟩ := hx
    have hb256 : b < 256 := utf8EncodeChar_lt c.toNat (char_toNat_lt c) b hb
    unfold pctTriple at hxl
    simp only [List.mem_cons, List.not_mem_nil, or_false] at hxl
    rcases hxl with rfl | rfl | rfl
    · exact Or.inr (Or.inl rfl)
    · refine Or.inr (Or.inr ?_)
      rcases hexDigitChar_range (b / 16) (by omega) with h | h
      · exact Or.inl h
      · exact Or.inr h
    · refine Or.inr (Or.inr ?_)
      rcases hexDigitChar_range (b % 16) (by omega) with h | h
      · exact Or.inl h
      · exact Or.inr h

/-- A character outside all output classes of encodeURIComponent does not
occur in its output. -/
theorem not_mem_encodeURIComponent (u : Str) (c : Char)
    (h1 : uriUnreserved c = false) (h2 : c ≠ '%')
    (h3 : ¬('0' ≤ c ∧ c ≤ '9')) (h4 : ¬('A' ≤ c ∧ c ≤ 'F')) :
    c ∉ encodeURIComponent u := by
  intro hc
  unfold encodeURIComponent at hc
  simp only [List.mem_flatten, List.mem_map] at hc
  obtain ⟨l, ⟨ch, hch, rfl⟩, hcl⟩ := hc
  rcases mem_encURIChar ch c hcl with h | h | h | h
  · rw [h1] at h
    exact Bool.false_ne_true h
  · exact h2 h
  · exact h3 h
  · exact h4 h

/-- encodeURIComponent on the empty string. -/
theorem encodeURIComponent_nil : encodeURIComponent [] = [] := rfl

/-- encodeURIComponent unfolds one character at a time. -/
theorem encodeURIComponent_cons (c : Char) (u : Str) :
    encodeURIComponent (c :: u) = encURIChar c ++ encodeURIComponent u := by
  unfold encodeURIComponent
  rw [List.map_cons, List.flatten_cons]

/-- An unreserved character is not the percent sign. -/
theorem uriUnreserved_ne_pct {c : Char} (h : uriUnreserved c = true) : c ≠ '%' := by
  intro he
  subst he
  exact absurd h (by decide)

/-- Encoding of an escaped ASCII character is its percent triple. -/
theorem encURIChar_escaped {c : Char} (hA : c.toNat < 128) (hu : uriUnreserved c = false) :
    encURIChar c = '%' :: hexDigitChar (c.toNat / 16) :: hexDigitChar (c.toNat % 16) :: [] := by
  unfold encURIChar
  rw [if_neg (by rw [hu]; exact Bool.false_ne_true), utf8EncodeChar_ascii hA]
  simp [pctTriple]

/-- Lenient percent-decoding steps over a non-percent character. -/
theorem pdbLenientF_cons_ne (fuel : Nat) (c : Char) (rest : Str) (hc : c ≠ '%') :
    pdbLenientF (fuel + 1) (c :: rest) = utf8EncodeChar c.toNat ++ pdbLenientF fuel rest := by
  simp only [pdbLenientF]
  rw [if_neg hc]

/-- Lenient percent-decoding consumes a valid escape triple. -/
theorem pdbLenientF_pct (fuel : Nat) (h1 h2 : Char) (t : Str) (a b : Nat)
    (ha : hexVal h1 = some a) (hb : hexVal h2 = some b) :
    pdbLenientF (fuel + 1) ('%' :: h1 :: h2 :: t) = (16 * a + b) :: pdbLenientF fuel t := by
  simp only [pdbLenientF]
  rw [if_pos trivial, ha, hb]

/-- Lenient percent-decoding of an encoded ASCII string recovers its
code points (fuel form). -/
theorem pdbLenientF_encode : ∀ (u : Str) (fuel : Nat), asciiStr u →
    (encodeURIComponent u).length ≤ fuel →
    pdbLenientF fuel (encodeURIComponent u) = u.map Char.toNat := by
  intro u
  induction u with
  | nil =>
    intro fuel _ _
    rw [encodeURIComponent_nil]
    cases fuel <;> rfl
  | cons c us ih =>
    intro fuel hA hlen
    have hc : c.toNat < 128 := hA c (List.mem_cons_self c us)
    have hA2 : asciiStr us := fun x hx => hA x (List.mem_cons_of_mem c hx)
    rw [encodeURIComponent_cons] at hlen ⊢
    by_cases hu : uriUnreserved c = true
    · have hec : encURIChar c = [c] := by
        unfold encURIChar
        rw [if_pos hu]
      rw [hec] at hlen ⊢
      have h1 : (encodeURIComponent us).length + 1 ≤ fuel := by
        simp only [List.length_append, List.length_cons, List.length_nil] at hlen
        omega
      obtain ⟨f, rfl⟩ : ∃ f, fuel = f + 1 := ⟨fuel - 1, by omega⟩
      rw [List.singleton_append, pdbLenientF_cons_ne f c _ (uriUnreserved_ne_pct hu),
        utf8EncodeChar_ascii hc, ih f hA2 (by omega), List.map_cons, List.singleton_append]
    · have hu2 : uriUnreserved c = false := by
        cases hq : uriUnreserved c
        · rfl
        · exact absurd hq hu
      rw [encURIChar_escaped hc hu2] at hlen ⊢
      have h3 : (encodeURIComponent us).length + 3 ≤ fuel := by
        simp only [List.length_append, List.length_cons, List.length_nil] at hlen
        omega
      obtain ⟨f, rfl⟩ : ∃ f, fuel = f + 1 := ⟨fuel - 1, by omega⟩
      rw [List.cons_append, List.cons_append, List.cons_append, List.nil_append]
      rw [pdbLenientF_pct f _ _ _ (c.toNat / 16) (c.toNat % 16)
        (hexVal_hexDigitChar _ (by omega)) (hexVal_hexDigitChar _ (by omega))]
      rw [ih f hA2 (by omega), List.map_cons]
      congr 1
      omega

/-- Lenient percent-decoding of an encoded ASCII string recovers its
code points. -/
theorem pdbLenient_encode (u : Str) (hA : asciiStr u) :
    pdbLenient (encodeURIComponent u) = u.map Char.toNat :=
  pdbLenientF_encode u _ hA le_rfl

/-- Lenient UTF-8 decoding of ASCII bytes maps them to characters
(fuel form). -/
theorem utf8DecodeLF_ascii : ∀ (bs : List Nat) (fuel : Nat), (∀ b ∈ bs, b < 128) →
    bs.length ≤ fuel → utf8DecodeLF fuel bs = bs.map Char.ofNat := by
  intro bs
  induction bs with
  | nil =>
    intro fuel _ _
    cases fuel <;> rfl
  | cons b t ih =>
    intro fuel hb hlen
    obtain ⟨f, rfl⟩ : ∃ f, fuel = f + 1 :=
      ⟨fuel - 1, by simp only [List.length_cons] at hlen; omega⟩
    simp only [utf8DecodeLF]
    rw [if_pos (hb b (List.mem_cons_self b t)),
      ih f (fun x hx => hb x (List.mem_cons_of_mem b hx))
        (by simp only [List.length_cons] at hlen; omega),
      List.map_cons]

/-- Lenient UTF-8 decoding inverts toNat on ASCII strings. -/
theorem utf8DecodeL_map_toNat (u : Str) (hA : asciiStr u) :
    utf8DecodeL (u.map Char.toNat) = u := by
  unfold utf8DecodeL
  rw [utf8DecodeLF_ascii (u.map Char.toNat) _
    (fun b hb => by
      obtain ⟨c, hc, rfl⟩ := List.mem_map.mp hb
      exact hA c hc) le_rfl]
  rw [List.map_map]
  have h2 : u.map (Char.ofNat ∘ Char.toNat) = u.map id :=
    List.map_congr_left (fun a _ => Char.ofNat_toNat a)
  rw [h2, List.map_id]

/-- plusToSpace changes nothing when no plus sign occurs. -/
theorem plusToSpace_eq_self : ∀ (s : Str), '+' ∉ s → plusToSpace s = s := by
  intro s
  induction s with
  | nil => intro _; rfl
  | cons c t ih =>
    intro h
    have hc : c ≠ '+' := fun he => h (by rw [← he]; exact List.mem_cons_self c t)
    have ht : '+' ∉ t := fun hm => h (List.mem_cons_of_mem c hm)
    show List.map _ (c :: t) = c :: t
    rw [List.map_cons, if_neg hc]
    exact congrArg (c :: ·) (ih ht)

/-- Form decoding inverts encodeURIComponent on ASCII strings. -/
theorem formDecode_encode (u : Str) (hA : asciiStr u) :
    formDecode (encodeURIComponent u) = u := by
  unfold formDecode
  rw [plusToSpace_eq_self _ (not_mem_encodeURIComponent u '+'
    (by decide) (by decide) (by decide) (by decide))]
  rw [pdbLenient_encode u hA]
  exact utf8DecodeL_map_toNat u hA

/-- Strict percent-decoding of an ASCII percent-free string gives its
code points (fuel form). -/
theorem pdbStrictF_plain : ∀ (u : Str) (fuel : Nat), asciiStr u → '%' ∉ u →
    u.length ≤ fuel → pdbStrictF fuel u = some (u.map Char.toNat) := by
  intro u
  induction u with
  | nil =>
    intro fuel _ _ _
    cases fuel <;> rfl
  | cons c t ih =>
    intro fuel hA hp hlen
    obtain ⟨f, rfl⟩ : ∃ f, fuel = f + 1 :=
      ⟨fuel - 1, by simp only [List.length_cons] at hlen; omega⟩
    have hc : c ≠ '%' := fun he => hp (by rw [← he]; exact List.mem_cons_self c t)
    simp only [pdbStrictF]
    rw [if_neg hc, ih f (fun x hx => hA x (List.mem_cons_of_mem c hx))
      (fun hm => hp (List.mem_cons_of_mem c hm))
      (by simp only [List.length_cons] at hlen; omega)]
    rw [utf8EncodeChar_ascii (hA c (List.mem_cons_self c t))]
    rfl

/-- Strict UTF-8 decoding of ASCII bytes maps them to characters
(fuel form). -/
theorem utf8DecodeStrictF_ascii : ∀ (bs : List Nat) (fuel : Nat), (∀ b ∈ bs, b < 128) →
    bs.length ≤ fuel → utf8DecodeStrictF fuel bs = some (bs.map Char.ofNat) := by
  intro bs
  induction bs with
  | nil =>
    intro fuel _ _
    cases fuel <;> rfl
  | cons b t ih =>
    intro fuel hb hlen
    obtain ⟨f, rfl⟩ : ∃ f, fuel = f + 1 :=
      ⟨fuel - 1, by simp only [List.length_cons] at hlen; omega⟩
    simp only [utf8DecodeStrictF]
    rw [if_pos (hb b (List.mem_cons_self b t)),
      ih f (fun x hx => hb x (List.mem_cons_of_mem b hx))
        (by simp only [List.length_cons] at hlen; omega)]
    rfl

/-- decodeURIComponent is the identity on ASCII percent-free strings. -/
theorem decodeURIComponentM_plain (u : Str) (hA : asciiStr u) (hp : '%' ∉ u) :
    decodeURIComponentM u = some u := by
  unfold decodeURIComponentM pdbStrict
  rw [pdbStrictF_plain u _ hA hp le_rfl]
  show utf8DecodeStrict (u.map Char.toNat) = some u
  unfold utf8DecodeStrict
  rw [utf8DecodeStrictF_ascii (u.map Char.toNat) _
    (fun b hb => by
      obtain ⟨c, hc, rfl⟩ := List.mem_map.mp hb
      exact hA c hc) le_rfl]
  rw [List.map_map]
  have h2 : u.map (Char.ofNat ∘ Char.toNat) = u.map id :=
    List.map_congr_left (fun a _ => Char.ofNat_toNat a)
  rw [h2, List.map_id]

/-- Splitting on an absent separator yields one piece. -/
theorem splitOnChGo_no_sep (sep : Char) : ∀ (l acc : Str), sep ∉ l →
    splitOnChGo sep l acc = [acc.reverse ++ l] := by
  intro l
  induction l with
  | nil =>
    intro acc _
    simp [splitOnChGo]
  | cons c t ih =>
    intro acc h
    have hc : c ≠ sep := fun he => h (by rw [← he]; exact List.mem_cons_self c t)
    simp only [splitOnChGo]
    rw [if_neg hc, ih (c :: acc) (fun hm => h (List.mem_cons_of_mem c hm))]
    simp

/-- takeWhile and dropWhile at the first equals sign split a key-value
piece. -/
theorem takeWhile_key : ∀ (k v : Str), '=' ∉ k →
    ((k ++ '=' :: v).takeWhile (fun c => c ≠ '=') = k ∧
     (k ++ '=' :: v).dropWhile (fun c => c ≠ '=') = '=' :: v) := by
  intro k
  induction k with
  | nil =>
    intro v _
    refine ⟨?_, ?_⟩
    · simp [List.takeWhile_cons]
    · simp [List.dropWhile_cons]
  | cons c t ih =>
    intro v h
    have hc : c ≠ '=' := fun he => h (by rw [← he]; exact List.mem_cons_self c t)
    obtain ⟨h1, h2⟩ := ih v (fun hm => h (List.mem_cons_of_mem c hm))
    refine ⟨?_, ?_⟩
    · rw [List.cons_append, List.takeWhile_cons, if_pos (decide_eq_true hc), h1]
    · rw [List.cons_append, List.dropWhile_cons, if_pos (decide_eq_true hc), h2]

/-- parseSearchParams on a single ampersand-free key-value pair. -/
theorem parseSearchParams_single (k v : Str) (hk : '=' ∉ k)
    (hq : startsWithL ("?".toList) (k ++ '=' :: v) = false)
    (hamp : '&' ∉ (k ++ '=' :: v)) :
    parseSearchParams (k ++ '=' :: v) = [(formDecode k, formDecode v)] := by
  unfold parseSearchParams
  rw [hq]
  rw [if_neg Bool.false_ne_true]
  dsimp only
  unfold splitOnCh
  rw [splitOnChGo_no_sep '&' _ [] hamp]
  rw [List.reverse_nil, List.nil_append]
  have hne : (k ++ '=' :: v).isEmpty = false := by
    cases k <;> rfl
  simp only [List.filterMap_cons, List.filterMap_nil]
  rw [hne]
  simp only [Bool.false_eq_true, if_false]
  rw [(takeWhile_key k v hk).1, (takeWhile_key k v hk).2]
  rfl

/-- A decidable sufficient condition for asciiStr. -/
theorem asciiStr_of_all (s : Str)
    (h : s.all (fun c => decide (c.toNat < 128)) = true) : asciiStr s := by
  intro c hc
  exact of_decide_eq_true (List.all_eq_true.mp h c hc)

/-- cleanGoogleUrl inverts the /url?q= redirect wrapping on nonempty
ASCII URLs. -/
theorem cleanGoogleUrl_googleWrap (u : Str) (hA : asciiStr u) (hne : u ≠ []) :
    cleanGoogleUrl (googleWrap u) = u := by
  have hamp : '&' ∉ ('q' :: '=' :: encodeURIComponent u) := by
    simp only [List.mem_cons, not_or]
    exact ⟨by decide, by decide,
      not_mem_encodeURIComponent u '&' (by decide) (by decide) (by decide) (by decide)⟩
  have hsingle := parseSearchParams_single ['q'] (encodeURIComponent u)
    (by decide) rfl (by simpa using hamp)
  simp only [List.singleton_append] at hsingle
  have hdrop : (googleWrap u).drop 5 = 'q' :: '=' :: encodeURIComponent u := rfl
  have hq : getSearchParam (parseSearchParams ((googleWrap u).drop 5)) ("q".toList)
      = some u := by
    rw [hdrop, hsingle]
    unfold getSearchParam
    rw [@List.find?_cons_of_pos _ (fun p => p.1 == "q".toList)
      (formDecode ['q'], formDecode (encodeURIComponent u)) []
      (by show (formDecode ['q'] == "q".toList) = true
          decide)]
    show some (formDecode (encodeURIComponent u)) = some u
    rw [formDecode_encode u hA]
  have hue : u.isEmpty = false := by
    cases u with
    | nil => exact absurd rfl hne
    | cons a t => rfl
  have hstart : startsWithL ("/url?".toList) (googleWrap u) = true := rfl
  simp only [cleanGoogleUrl]
  rw [if_pos hstart, hq]
  simp only [hue, Bool.false_eq_true, if_false]

/-- cleanDuckDuckGoUrl inverts the uddg redirect wrapping on nonempty
ASCII percent-free URLs. -/
theorem cleanDuckDuckGoUrl_ddgWrap (u : Str) (hA : asciiStr u) (hne : u ≠ [])
    (hp : '%' ∉ u) : cleanDuckDuckGoUrl (ddgWrap u) = u := by
  have hamp : '&' ∉ ('u' :: 'd' :: 'd' :: 'g' :: '=' :: encodeURIComponent u) := by
    simp only [List.mem_cons, not_or]
    exact ⟨by decide, by decide, by decide, by decide, by decide,
      not_mem_encodeURIComponent u '&' (by decide) (by decide) (by decide) (by decide)⟩
  have hsingle := parseSearchParams_single ['u', 'd', 'd', 'g'] (encodeURIComponent u)
    (by decide) rfl (by simpa using hamp)
  simp only [List.cons_append, List.nil_append] at hsingle
  have hdrop : (ddgWrap u).drop (19 + 1)
      = 'u' :: 'd' :: 'd' :: 'g' :: '=' :: encodeURIComponent u := rfl
  have hfind : (ddgWrap u).findIdx? (fun c => c = '?') = some 19 := rfl
  have hq : getSearchParam (parseSearchParams ((ddgWrap u).drop (19 + 1)))
      ("uddg".toList) = some u := by
    rw [hdrop, hsingle]
    unfold getSearchParam
    rw [@List.find?_cons_of_pos _ (fun p => p.1 == "uddg".toList)
      (formDecode ['u', 'd', 'd', 'g'], formDecode (encodeURIComponent u)) []
      (by show (formDecode ['u', 'd', 'd', 'g'] == "uddg".toList) = true
          decide)]
    show some (formDecode (encodeURIComponent u)) = some u
    rw [formDecode_encode u hA]
  have hue : u.isEmpty = false := by
    cases u with
    | nil => exact absurd rfl hne
    | cons a t => rfl
  have hstart : startsWithL ("//duckduckgo.com/l/".toList) (ddgWrap u) = true := rfl
  simp only [cleanDuckDuckGoUrl]
  rw [if_pos hstart, hfind]
  dsimp only
  rw [hq]
  simp only [hue, Bool.false_eq_true, if_false]
  rw [decodeURIComponentM_plain u hA hp]

/-- cleanBingUrl restores the scheme of a protocol-relative https URL. -/
theorem cleanBingUrl_protoRelWrap (u : Str)
    (h : startsWithL ("https://".toList) u = true) :
    cleanBingUrl (protoRelWrap u) = u := by
  obtain ⟨t, ht⟩ := (startsWithL_iff _ _).mp h
  subst ht
  have h1 : protoRelWrap ("https://".toList ++ t) = '/' :: '/' :: t := by
    unfold protoRelWrap
    rw [if_pos (show startsWithL ("https:".toList) ("https://".toList ++ t) = true from rfl)]
    rfl
  rw [h1]
  unfold cleanBingUrl
  rw [if_pos (show startsWithL ("//".toList) ('/' :: '/' :: t) = true from rfl)]
  rfl

/-- cleanBraveUrl restores the scheme of a protocol-relative https URL. -/
theorem cleanBraveUrl_protoRelWrap (u : Str)
    (h : startsWithL ("https://".toList) u = true) :
    cleanBraveUrl (protoRelWrap u) = u := by
  obtain ⟨t, ht⟩ := (startsWithL_iff _ _).mp h
  subst ht
  have h1 : protoRelWrap ("https://".toList ++ t) = '/' :: '/' :: t := by
    unfold protoRelWrap
    rw [if_pos (show startsWithL ("https:".toList) ("https://".toList ++ t) = true from rfl)]
    rfl
  rw [h1]
  unfold cleanBraveUrl
  rw [if_pos (show startsWithL ("//".toList) ('/' :: '/' :: t) = true from rfl)]
  rfl

/-- cleanBingUrl preserves isValidSearchUrl. -/
theorem isValidSearchUrl_cleanBingUrl (u : Str) (h : isValidSearchUrl u = true) :
    isValidSearchUrl (cleanBingUrl u) = true := by
  unfold cleanBingUrl
  split_ifs with h1 h2
  · obtain ⟨t, ht⟩ := (startsWithL_iff _ _).mp h1
    have hs : startsWithL ("https://".toList) ("https:".toList ++ u) = true := by
      rw [← ht]
      exact startsWithL_refl_append ("https://".toList) t
    unfold isValidSearchUrl
    rw [hs]
    simp
  · exact h
  · exact h

/-- cleanBraveUrl preserves isValidSearchUrl. -/
theorem isValidSearchUrl_cleanBraveUrl (u : Str) (h : isValidSearchUrl u = true) :
    isValidSearchUrl (cleanBraveUrl u) = true := by
  unfold cleanBraveUrl
  split_ifs with h1 h2
  · obtain ⟨t, ht⟩ := (startsWithL_iff _ _).mp h1
    have hs : startsWithL ("https://".toList) ("https:".toList ++ u) = true := by
      rw [← ht]
      exact startsWithL_refl_append ("https://".toList) t
    unfold isValidSearchUrl
    rw [hs]
    simp
  · exact h
  · exact h

/-- Every result the Bing parser pushes passed isValidSearchUrl, and its
cleaned url still satisfies it. -/
theorem parseBingResultsGo_valid (ts : Str) (m : Nat) :
    ∀ (bs : List ExtractedBlock) (count : Nat) (r : SearchResult),
    r ∈ parseBingResultsGo ts m bs count → isValidSearchUrl r.url = true := by
  intro bs
  induction bs with
  | nil =>
    intro count r hr
    simp [parseBingResultsGo] at hr
  | cons b t ih =>
    intro count r hr
    unfold parseBingResultsGo at hr
    by_cases h1 : m ≤ count
    · rw [if_pos h1] at hr
      simp at hr
    · rw [if_neg h1] at hr
      by_cases h2 : (!b.title.isEmpty && !b.url.isEmpty && isValidSearchUrl b.url) = true
      · rw [if_pos h2] at hr
        rcases List.mem_cons.mp hr with rfl | hmem
        · simp only [Bool.and_eq_true] at h2
          exact isValidSearchUrl_cleanBingUrl b.url h2.2
        · exact ih (count + 1) r hmem
      · rw [if_neg h2] at hr
        exact ih count r hr

/-- Every result the Brave parser pushes passed isValidSearchUrl, and its
cleaned url still satisfies it. -/
theorem parseBraveResultsGo_valid (ts : Str) (m : Nat) :
    ∀ (bs : List ExtractedBlock) (count : Nat) (r : SearchResult),
    r ∈ parseBraveResultsGo ts m bs count → isValidSearchUrl r.url = true := by
  intro bs
  induction bs with
  | nil =>
    intro count r hr
    simp [parseBraveResultsGo] at hr
  | cons b t ih =>
    intro count r hr
    unfold parseBraveResultsGo at hr
    by_cases h1 : m ≤ count
    · rw [if_pos h1] at hr
      simp at hr
    · rw [if_neg h1] at hr
      by_cases h2 : (!b.title.isEmpty && !b.url.isEmpty && isValidSearchUrl b.url) = true
      · rw [if_pos h2] at hr
        rcases List.mem_cons.mp hr with rfl | hmem
        · simp only [Bool.and_eq_true] at h2
          exact isValidSearchUrl_cleanBraveUrl b.url h2.2
        · exact ih (count + 1) r hmem
      · rw [if_neg h2] at hr
        exact ih count r hr

/-- C2 counterexample: the DuckDuckGo parser emits a result whose url,
ftp://evil.example/file, fails http/https schema validation (validateUrl),
because parseDuckDuckGoResults checks only truthiness of title and href
and cleanDuckDuckGoUrl passes non-redirect URLs through unchanged. -/
theorem c2_counterexample :
    ∃ r ∈ parseDuckDuckGoResults ("2024".toList)
        [{ title := "Example site".toList,
           url := some ("ftp://evil.example/file".toList),
           snippet := "a snippet".toList }] 5,
      validateUrl r.url = false := by
  refine ⟨mkParsedResult ("2024".toList) ("Example site".toList)
      ("ftp://evil.example/file".toList) ("a snippet".toList), ?_, ?_⟩
  · decide
  · decide

/-- C2 (amended): every result of the Bing and Brave parsers has a url
accepted by isValidSearchUrl (the permissive in-code filter, weaker than
http/https schema validity, which the DuckDuckGo parser does not apply at
all); and the engine URL-cleaning steps invert the redirect wrappings:
cleanGoogleUrl unwraps /url?q= on nonempty ASCII URLs, cleanDuckDuckGoUrl
unwraps the uddg parameter on nonempty ASCII percent-free URLs, and
cleanBingUrl and cleanBraveUrl restore the scheme of protocol-relative
https URLs. -/
theorem c2_url_validation_roundtrip :
    (∀ (ts : Str) (blocks : List ExtractedBlock) (m : Nat) (r : SearchResult),
       r ∈ parseBingResults ts blocks m → isValidSearchUrl r.url = true) ∧
    (∀ (ts : Str) (blocks : List ExtractedBlock) (m : Nat) (r : SearchResult),
       r ∈ parseBraveResults ts blocks m → isValidSearchUrl r.url = true) ∧
    (∀ u : Str, asciiStr u → u ≠ [] → cleanGoogleUrl (googleWrap u) = u) ∧
    (∀ u : Str, asciiStr u → u ≠ [] → '%' ∉ u →
       cleanDuckDuckGoUrl (ddgWrap u) = u) ∧
    (∀ u : Str, startsWithL ("https://".toList) u = true →
       cleanBingUrl (protoRelWrap u) = u ∧ cleanBraveUrl (protoRelWrap u) = u) := by
  refine ⟨?_, ?_, ?_, ?_, ?_⟩
  · intro ts blocks m r hr
    exact parseBingResultsGo_valid ts m blocks 0 r hr
  · intro ts blocks m r hr
    exact parseBraveResultsGo_valid ts m blocks 0 r hr
  · intro u hA hne
    exact cleanGoogleUrl_googleWrap u hA hne
  · intro u hA hne hp
    exact cleanDuckDuckGoUrl_ddgWrap u hA hne hp
  · intro u h
    exact ⟨cleanBingUrl_protoRelWrap u h, cleanBraveUrl_protoRelWrap u h⟩

/-- C2 witness: the amended theorem applied at concrete inputs, one per
conjunct. -/
theorem c2_witness :
    isValidSearchUrl (mkParsedResult ("t0".toList) ("A page".toList)
        ("https://example.com".toList) noDescription).url = true ∧
    cleanGoogleUrl (googleWrap ("https://example.com/page".toList))
      = "https://example.com/page".toList ∧
    cleanDuckDuckGoUrl (ddgWrap ("https://example.com/page".toList))
      = "https://example.com/page".toList ∧
    cleanBingUrl (protoRelWrap ("https://example.com/page".toList))
      = "https://example.com/page".toList ∧
    cleanBraveUrl (protoRelWrap ("https://example.com/page".toList))
      = "https://example.com/page".toList := by
  refine ⟨?_, ?_, ?_, ?_, ?_⟩
  · exact c2_url_validation_roundtrip.1 ("t0".toList)
      [{ title := "A page".toList, url := "https://example.com".toList,
         snippet := [] }] 5 _ (by decide)
  · exact c2_url_validation_roundtrip.2.2.1 ("https://example.com/page".toList)
      (asciiStr_of_all _ (by decide)) (by decide)
  · exact c2_url_validation_roundtrip.2.2.2.1 ("https://example.com/page".toList)
      (asciiStr_of_all _ (by decide)) (by decide) (by decide)
  · exact (c2_url_validation_roundtrip.2.2.2.2 ("https://example.com/page".toList)
      (by decide)).1
  · exact (c2_url_validation_roundtrip.2.2.2.2 ("https://example.com/page".toList)
      (by decide)).2
